import Mathlib

/-!
Erlang source generator for Protocol Buffers: embedding and properties

A shallow embedding of `src/ErlangSourceGenerator.cpp`.  The generator walks a
tree of descriptors and appends text to a `Printer`; no `Indent()` call is ever
made, so `Print` with `$var$` substitution is plain concatenation and every
emitting function is modelled as the text it appends.  Braces inside the
emitted Erlang are written `\x7b` and `\x7d`.
-/

namespace ErlangGenerator

/-! ## Descriptors (read-only views supplied by the schema library) -/

/-- The values of `FieldDescriptor::Type`. -/
inductive FieldType where
  | TYPE_DOUBLE | TYPE_FLOAT | TYPE_INT64 | TYPE_UINT64 | TYPE_INT32
  | TYPE_FIXED64 | TYPE_FIXED32 | TYPE_BOOL | TYPE_STRING | TYPE_GROUP
  | TYPE_MESSAGE | TYPE_BYTES | TYPE_UINT32 | TYPE_ENUM | TYPE_SFIXED32
  | TYPE_SFIXED64 | TYPE_SINT32 | TYPE_SINT64
  deriving DecidableEq, Repr

/-- One declared value of an enum: `name()` and `number()`. -/
structure EnumValueDescriptor where
  name : String
  number : Int
  deriving DecidableEq, Repr

/-- An enum type: its qualified name and its values in declaration order. -/
structure EnumDescriptor where
  full_name : String
  values : List EnumValueDescriptor
  deriving DecidableEq, Repr

/-- A field.  Descriptor pointers (`containing_type()`, `message_type()`,
`enum_type()`) are represented by the qualified name of the type they point to;
`message_type` is meaningful for `TYPE_MESSAGE` and `TYPE_GROUP` only and
`enum_type` for `TYPE_ENUM` only.  `packed` is the declared `[packed=...]` option, which the
generator never reads. -/
structure FieldDescriptor where
  name : String
  number : Int
  type : FieldType
  is_repeated : Bool
  packed : Bool
  containing_type : String
  message_type : String
  enum_type : String
  deriving DecidableEq, Repr

/-- A message type: qualified name, fields, nested message types and nested
enum types, each in declaration order. -/
inductive Descriptor where
  | mk (full_name : String) (fields : List FieldDescriptor)
      (nested_types : List Descriptor) (enum_types : List EnumDescriptor) : Descriptor

/-- Qualified name of a message type. -/
def Descriptor.full_name : Descriptor → String
  | .mk n _ _ _ => n

/-- Fields of a message type, `field(0) .. field(field_count()-1)`. -/
def Descriptor.fields : Descriptor → List FieldDescriptor
  | .mk _ fs _ _ => fs

/-- Nested message types, `nested_type(0) .. nested_type(nested_type_count()-1)`. -/
def Descriptor.nested_types : Descriptor → List Descriptor
  | .mk _ _ ns _ => ns

/-- Nested enum types, `enum_type(0) .. enum_type(enum_type_count()-1)`. -/
def Descriptor.enum_types : Descriptor → List EnumDescriptor
  | .mk _ _ _ es => es

/-- A schema file: its name, the names of the files it depends on, and its
top-level enum and message types. -/
structure FileDescriptor where
  name : String
  dependencies : List String
  enum_types : List EnumDescriptor
  message_types : List Descriptor

/-- The helpers declared in `ErlangGenerator.h` (not part of the source file):
integer printing, atom quoting, the type-name table and the derivations of the
generated identifiers.  They are taken as a parameter of every emitter; the
ones that take a descriptor pointer take the qualified name here. -/
structure Naming where
  int_to_string : Int → String
  to_atom : String → String
  normalized_scope : String → String
  kTypeToName : FieldType → String
  module_name : String → String
  to_enum_name : String → String
  from_enum_name : String → String
  encode_name : String → String
  decode_name : String → String
  decode_impl_name : String → String

/-- The field types that reach the `default:` label of both `switch`
statements on the decode side: everything except string, bytes, message, enum
and group. -/
def FieldType.isPackable : FieldType → Bool
  | .TYPE_STRING | .TYPE_BYTES | .TYPE_MESSAGE | .TYPE_ENUM | .TYPE_GROUP => false
  | _ => true

/-! ## The emitters, as the text they append -/

/-- `export_for_enum`: `"  $to$/1,$from$/1"`. -/
def export_for_enum (nm : Naming) (d : EnumDescriptor) : String :=
  "  " ++ nm.to_enum_name d.full_name ++ "/1," ++ nm.from_enum_name d.full_name ++ "/1"

/-- The second loop of `export_for_message`: each nested enum followed by
`",\n"`. -/
def export_for_message_enums (nm : Naming) : List EnumDescriptor → String
  | [] => ""
  | e :: es => export_for_enum nm e ++ ",\n" ++ export_for_message_enums nm es

mutual
/-- `export_for_message`: nested messages (recursively), then nested enums,
each followed by `",\n"`, then `"  $encode$/1,$decode$/1"`. -/
def export_for_message (nm : Naming) : Descriptor → String
  | .mk n _ nested enums =>
    export_for_message_nested nm nested ++ export_for_message_enums nm enums
      ++ ("  " ++ nm.encode_name n ++ "/1," ++ nm.decode_name n ++ "/1")
/-- The first loop of `export_for_message`. -/
def export_for_message_nested (nm : Naming) : List Descriptor → String
  | [] => ""
  | d :: ds => export_for_message nm d ++ ",\n" ++ export_for_message_nested nm ds
end

/-- `field_to_decode_function`: the clause(s) of the callback handed to
`protocol_buffers:decode/3` for one field. -/
def field_to_decode_function (nm : Naming) (field : FieldDescriptor) : String :=
  let id := nm.int_to_string field.number
  let r := nm.to_atom (nm.normalized_scope field.containing_type)
  let f := nm.to_atom field.name
  let type := nm.kTypeToName field.type
  match field.type with
  | .TYPE_STRING | .TYPE_BYTES =>
    if field.is_repeated then
      "(" ++ id ++ ",Val,#" ++ r ++ "\x7b" ++ f ++ "=F\x7d=Rec) when is_list(F) -> Rec#" ++ r
        ++ "\x7b" ++ f ++ " = Rec#" ++ r ++ "." ++ f
        ++ " ++ [protocol_buffers:cast(" ++ type ++ ",Val)]\x7d\n"
    else
      "(" ++ id ++ ",Val,Rec) -> Rec#" ++ r ++ "\x7b" ++ f
        ++ " = protocol_buffers:cast(" ++ type ++ ",Val)\x7d"
  | .TYPE_MESSAGE =>
    let decode := nm.decode_impl_name field.message_type
    if field.is_repeated then
      "(" ++ id ++ ",\x7blength_encoded,Bin\x7d,#" ++ r ++ "\x7b" ++ f
        ++ "=F\x7d=Rec) when is_list(F) -> Rec#" ++ r
        ++ "\x7b" ++ f ++ " = Rec#" ++ r ++ "." ++ f ++ " ++ [" ++ decode ++ "(Bin)]\x7d\n"
    else
      "(" ++ id ++ ",\x7blength_encoded,Bin\x7d,Rec) -> Rec#" ++ r ++ "\x7b" ++ f
        ++ " = " ++ decode ++ "(Bin)\x7d"
  | .TYPE_ENUM =>
    let to_enum := nm.to_enum_name field.enum_type
    if field.is_repeated then
      "(" ++ id ++ ",\x7bvarint,Enum\x7d,#" ++ r ++ "\x7b" ++ f
        ++ "=F\x7d=Rec) when is_list(F) -> Rec#" ++ r
        ++ "\x7b" ++ f ++ "=Rec#" ++ r ++ "." ++ f ++ " ++ [" ++ to_enum ++ "(Enum)]\x7d\n"
    else
      "(" ++ id ++ ",\x7bvarint,Enum\x7d,Rec) -> Rec#" ++ r ++ "\x7b" ++ f
        ++ "=" ++ to_enum ++ "(Enum)\x7d"
  | .TYPE_GROUP => ""
  | _ =>
    if field.is_repeated then
      ("        (" ++ id ++ ",\x7blength_encoded,_\x7d=Val,#" ++ r ++ "\x7b" ++ f
        ++ "=F\x7d=Rec) when is_list(F) -> Rec#" ++ r
        ++ "\x7b" ++ f ++ " = Rec#" ++ r ++ "." ++ f
        ++ " ++ protocol_buffers:cast(" ++ type ++ ",Val)\x7d;\n")
      ++ ("        (" ++ id ++ ",Val,#" ++ r ++ "\x7b" ++ f
        ++ "=F\x7d=Rec) when is_list(F) -> Rec#" ++ r
        ++ "\x7b" ++ f ++ " = Rec#" ++ r ++ "." ++ f
        ++ " ++ [protocol_buffers:cast(" ++ type ++ ",Val)]\x7d\n")
    else
      "(" ++ id ++ ",Val,Rec) -> Rec#" ++ r ++ "\x7b" ++ f
        ++ " = protocol_buffers:cast(" ++ type ++ ",Val)\x7d"

/-- The first loop of `encode_decode_for_enum`: one `to_enum` clause per
declared value. -/
def to_enum_clauses (nm : Naming) (d : EnumDescriptor) : List EnumValueDescriptor → String
  | [] => ""
  | v :: vs =>
    nm.to_enum_name d.full_name ++ "(" ++ nm.int_to_string v.number ++ ") -> "
      ++ nm.to_atom v.name ++ ";\n" ++ to_enum_clauses nm d vs

/-- The second loop of `encode_decode_for_enum`: one `from_enum` clause per
declared value. -/
def from_enum_clauses (nm : Naming) (d : EnumDescriptor) : List EnumValueDescriptor → String
  | [] => ""
  | v :: vs =>
    nm.from_enum_name d.full_name ++ "(" ++ nm.to_atom v.name ++ ") -> "
      ++ nm.int_to_string v.number ++ ";\n" ++ from_enum_clauses nm d vs

/-- `encode_decode_for_enum`. -/
def encode_decode_for_enum (nm : Naming) (d : EnumDescriptor) : String :=
  to_enum_clauses nm d d.values
    ++ (nm.to_enum_name d.full_name ++ "(undefined) -> undefined.\n\n")
    ++ from_enum_clauses nm d d.values
    ++ (nm.from_enum_name d.full_name ++ "(undefined) -> undefined.\n\n")

/-- The decode header printed by `encode_decode_for_message`: the exported
wrapper, the `<<>>` clause of the implementation and the start of its general
clause, up to and including `fun`. -/
def decode_functions_head (nm : Naming) (d : Descriptor) : String :=
  let function := nm.decode_name d.full_name
  let function_impl := nm.decode_impl_name d.full_name
  let msg := nm.to_atom (nm.normalized_scope d.full_name)
  function ++ "(B) ->\n"
    ++ "  case " ++ function_impl ++ "(B) of\n"
    ++ "    undefined -> #" ++ msg ++ "\x7b\x7d;\n"
    ++ "    Any -> Any\n"
    ++ "  end.\n\n"
    ++ function_impl ++ "(<<>>) -> undefined;\n"
    ++ function_impl ++ "(Binary) ->\n"
    ++ "  protocol_buffers:decode(Binary,#" ++ msg ++ "\x7b\x7d,\n"
    ++ "     fun"

/-- The decode loop of `encode_decode_for_message`: every field's clauses,
followed by `";\n        "` unless the field is the last one. -/
def decode_field_loop (nm : Naming) : List FieldDescriptor → String
  | [] => ""
  | [f] => field_to_decode_function nm f
  | f :: fs => field_to_decode_function nm f ++ ";\n        " ++ decode_field_loop nm fs

/-- The dispatch function emitted for a message: `fun`, the decode loop and the
closing `end).`. -/
def decode_dispatch (nm : Naming) (d : Descriptor) : String :=
  "fun" ++ decode_field_loop nm d.fields ++ "\n      end).\n\n"

/-- The body of the encode loop of `encode_decode_for_message` for one field
(the `switch` on the field type). -/
def encode_fragment (nm : Naming) (field : FieldDescriptor) : String :=
  let id := nm.int_to_string field.number
  let r := nm.to_atom (nm.normalized_scope field.containing_type)
  let f := nm.to_atom field.name
  let type := nm.kTypeToName field.type
  match field.type with
  | .TYPE_ENUM =>
    let from_enum := nm.from_enum_name field.enum_type
    if field.is_repeated then
      "    [protocol_buffers:encode(" ++ id ++ ",int32," ++ from_enum ++ "(X)) || X <- R#"
        ++ r ++ "." ++ f ++ "]"
    else
      "    protocol_buffers:encode(" ++ id ++ ",int32," ++ from_enum ++ "(R#"
        ++ r ++ "." ++ f ++ "))"
  | .TYPE_MESSAGE =>
    let encode := nm.encode_name field.message_type
    if field.is_repeated then
      "    [ protocol_buffers:encode(" ++ id ++ ",length_encoded," ++ encode
        ++ "(X)) || X <- R#" ++ r ++ "." ++ f ++ "]"
    else
      "    protocol_buffers:encode(" ++ id ++ ",length_encoded," ++ encode ++ "(R#"
        ++ r ++ "." ++ f ++ "))"
  | .TYPE_BYTES | .TYPE_STRING =>
    if field.is_repeated then
      "    [ protocol_buffers:encode(" ++ id ++ ",length_encoded,X) || X <- R#"
        ++ r ++ "." ++ f ++ "]"
    else
      "    protocol_buffers:encode(" ++ id ++ ",length_encoded,R#" ++ r ++ "." ++ f ++ ")"
  | _ =>
    "    protocol_buffers:encode(" ++ id ++ "," ++ type ++ ",R#" ++ r ++ "." ++ f ++ ")"

/-- The encode loop of `encode_decode_for_message`: every field's fragment,
followed by `",\n"` unless the field is the last one. -/
def encode_field_loop (nm : Naming) : List FieldDescriptor → String
  | [] => ""
  | [f] => encode_fragment nm f
  | f :: fs => encode_fragment nm f ++ ",\n" ++ encode_field_loop nm fs

/-- The encode function emitted for a message: the `undefined` clause, the
record clause and the list of field fragments. -/
def encode_function (nm : Naming) (d : Descriptor) : String :=
  let function := nm.encode_name d.full_name
  let r := nm.to_atom (nm.normalized_scope d.full_name)
  function ++ "(undefined) -> undefined;\n"
    ++ function ++ "(R) when is_record(R," ++ r ++ ") ->\n"
    ++ "  [\n"
    ++ encode_field_loop nm d.fields
    ++ "\n  ].\n\n"

/-- What `encode_decode_for_message` prints for the message itself, after the
two recursive loops: the decode functions, then the encode function. -/
def message_own_codec (nm : Naming) (d : Descriptor) : String :=
  decode_functions_head nm d ++ decode_field_loop nm d.fields ++ "\n      end).\n\n"
    ++ encode_function nm d

/-- The first loop of `encode_decode_for_message`: the codecs of the nested
enums. -/
def encode_decode_for_enums (nm : Naming) : List EnumDescriptor → String
  | [] => ""
  | e :: es => encode_decode_for_enum nm e ++ encode_decode_for_enums nm es

mutual
/-- `encode_decode_for_message`: nested enums, nested messages (recursively),
then the message's own decode and encode functions. -/
def encode_decode_for_message (nm : Naming) : Descriptor → String
  | .mk n fs nested enums =>
    encode_decode_for_enums nm enums ++ encode_decode_for_message_nested nm nested
      ++ message_own_codec nm (.mk n fs nested enums)
/-- The second loop of `encode_decode_for_message`. -/
def encode_decode_for_message_nested (nm : Naming) : List Descriptor → String
  | [] => ""
  | d :: ds => encode_decode_for_message nm d ++ encode_decode_for_message_nested nm ds
end

/-- The export loop of `generate_source` over the top-level messages: `",\n"`
after every message except the last. -/
def export_message_loop (nm : Naming) : List Descriptor → String
  | [] => ""
  | [d] => export_for_message nm d
  | d :: ds => export_for_message nm d ++ ",\n" ++ export_message_loop nm ds

/-- The `-include` lines printed for the dependencies. -/
def dependency_includes (nm : Naming) : List String → String
  | [] => ""
  | dep :: deps =>
    "-include(\"" ++ nm.module_name dep ++ ".hrl\").\n" ++ dependency_includes nm deps

/-- The export attribute written by `generate_source`, from `-export([` to
`]).`: every top-level enum followed by `",\n"`, then the message loop. -/
def export_attribute (nm : Naming) (file : FileDescriptor) : String :=
  "-export([\n" ++ export_for_message_enums nm file.enum_types
    ++ export_message_loop nm file.message_types ++ "]).\n\n"

/-- `generate_source`: header, includes, export attribute, enum codecs and
message codecs. -/
def generate_source (nm : Naming) (file : FileDescriptor) : String :=
  "-module(" ++ nm.module_name file.name ++ ").\n"
    ++ "-include(\"" ++ nm.module_name file.name ++ ".hrl\").\n\n"
    ++ dependency_includes nm file.dependencies
    ++ export_attribute nm file
    ++ encode_decode_for_enums nm file.enum_types
    ++ encode_decode_for_message_nested nm file.message_types

/-! ## A concrete naming collaborator, for evaluating the emitters -/

/-- A type-name table in the shape of `kTypeToName`: the lower-case name of
each wire type. -/
def sampleTypeName : FieldType → String
  | .TYPE_DOUBLE => "double" | .TYPE_FLOAT => "float" | .TYPE_INT64 => "int64"
  | .TYPE_UINT64 => "uint64" | .TYPE_INT32 => "int32" | .TYPE_FIXED64 => "fixed64"
  | .TYPE_FIXED32 => "fixed32" | .TYPE_BOOL => "bool" | .TYPE_STRING => "string"
  | .TYPE_GROUP => "group" | .TYPE_MESSAGE => "message" | .TYPE_BYTES => "bytes"
  | .TYPE_UINT32 => "uint32" | .TYPE_ENUM => "enum" | .TYPE_SFIXED32 => "sfixed32"
  | .TYPE_SFIXED64 => "sfixed64" | .TYPE_SINT32 => "sint32" | .TYPE_SINT64 => "sint64"

/-- One instance of the naming helpers: decimal integers, names used as atoms
unchanged, and identifiers built from the qualified name.  The implementation
decode function is named apart from the exported one, as the two are defined
as separate functions by `encode_decode_for_message`. -/
def sampleNaming : Naming where
  int_to_string := fun n => toString n
  to_atom := fun s => s
  normalized_scope := fun s => s
  kTypeToName := sampleTypeName
  module_name := fun s => s
  to_enum_name := fun s => "to_" ++ s
  from_enum_name := fun s => "from_" ++ s
  encode_name := fun s => "encode_" ++ s
  decode_name := fun s => "decode_" ++ s
  decode_impl_name := fun s => "decode_" ++ s ++ "_impl"

/-! ## Structured view of the emitted decode clauses -/

/-- Concatenation of texts with a separator between consecutive items. -/
def joinWith (sep : String) : List String → String
  | [] => ""
  | [x] => x
  | x :: y :: xs => x ++ sep ++ joinWith sep (y :: xs)

/-- The payload pattern in the second argument of a decode clause. -/
inductive PayloadPattern where
  /-- Pattern `Val`: matches any payload. -/
  | anyVal
  /-- Pattern `{length_encoded,_}=Val`. -/
  | lengthEncodedVal
  /-- Pattern `{length_encoded,Bin}`. -/
  | lengthEncodedBin
  /-- Pattern `{varint,Enum}`. -/
  | varintEnum
  deriving DecidableEq, Repr

/-- How the clause body combines the decoded value with the field. -/
inductive DecodeUpdate where
  /-- Body `field = E`. -/
  | replace
  /-- Body `field = Rec#rec.field ++ [E]`. -/
  | appendOne
  /-- Body `field = Rec#rec.field ++ E`. -/
  | concat
  deriving DecidableEq, Repr

/-- The expression `E` applied to the variable bound by the payload pattern. -/
inductive DecodeExpr where
  /-- Expression `protocol_buffers:cast(type,Val)`. -/
  | cast (type : String)
  /-- Expression `fn(Bin)` or `fn(Enum)`. -/
  | call (fn : String)
  deriving DecidableEq, Repr

/-- One clause `(id, pattern, record) [when is_list(F)] -> update`.  `lead` and
`trail` are the white space printed before and after the clause. -/
structure DecodeClause where
  id : Int
  recName : String
  field : String
  pattern : PayloadPattern
  listGuard : Bool
  update : DecodeUpdate
  expr : DecodeExpr
  lead : String
  trail : String
  deriving DecidableEq, Repr

/-- Text of a payload pattern. -/
def PayloadPattern.text : PayloadPattern → String
  | .anyVal => "Val"
  | .lengthEncodedVal => "\x7blength_encoded,_\x7d=Val"
  | .lengthEncodedBin => "\x7blength_encoded,Bin\x7d"
  | .varintEnum => "\x7bvarint,Enum\x7d"

/-- The variable a payload pattern binds for use in the body. -/
def PayloadPattern.var : PayloadPattern → String
  | .anyVal => "Val"
  | .lengthEncodedVal => "Val"
  | .lengthEncodedBin => "Bin"
  | .varintEnum => "Enum"

/-- Text of the decoded-value expression over variable `v`. -/
def DecodeExpr.text (v : String) : DecodeExpr → String
  | .cast type => "protocol_buffers:cast(" ++ type ++ "," ++ v ++ ")"
  | .call fn => fn ++ "(" ++ v ++ ")"

/-- Text of one decode clause. -/
def DecodeClause.render (nm : Naming) (c : DecodeClause) : String :=
  let e := c.expr.text c.pattern.var
  c.lead ++ "(" ++ nm.int_to_string c.id ++ "," ++ c.pattern.text ++ ","
    ++ (if c.listGuard then
          "#" ++ c.recName ++ "\x7b" ++ c.field ++ "=F\x7d=Rec) when is_list(F)"
        else "Rec)")
    ++ " -> Rec#" ++ c.recName ++ "\x7b" ++ c.field
    ++ (if c.pattern = .varintEnum then "=" else " = ")
    ++ (match c.update with
        | .replace => e
        | .appendOne => "Rec#" ++ c.recName ++ "." ++ c.field ++ " ++ [" ++ e ++ "]"
        | .concat => "Rec#" ++ c.recName ++ "." ++ c.field ++ " ++ " ++ e)
    ++ "\x7d" ++ c.trail

/-- The clauses `field_to_decode_function` emits for a field, in emission
order, following the branches of its `switch`. -/
def decodeClauses (nm : Naming) (field : FieldDescriptor) : List DecodeClause :=
  let r := nm.to_atom (nm.normalized_scope field.containing_type)
  let f := nm.to_atom field.name
  let type := nm.kTypeToName field.type
  match field.type with
  | .TYPE_STRING | .TYPE_BYTES =>
    if field.is_repeated then
      [⟨field.number, r, f, .anyVal, true, .appendOne, .cast type, "", "\n"⟩]
    else
      [⟨field.number, r, f, .anyVal, false, .replace, .cast type, "", ""⟩]
  | .TYPE_MESSAGE =>
    let decode := nm.decode_impl_name field.message_type
    if field.is_repeated then
      [⟨field.number, r, f, .lengthEncodedBin, true, .appendOne, .call decode, "", "\n"⟩]
    else
      [⟨field.number, r, f, .lengthEncodedBin, false, .replace, .call decode, "", ""⟩]
  | .TYPE_ENUM =>
    let to_enum := nm.to_enum_name field.enum_type
    if field.is_repeated then
      [⟨field.number, r, f, .varintEnum, true, .appendOne, .call to_enum, "", "\n"⟩]
    else
      [⟨field.number, r, f, .varintEnum, false, .replace, .call to_enum, "", ""⟩]
  | .TYPE_GROUP => []
  | _ =>
    if field.is_repeated then
      [⟨field.number, r, f, .lengthEncodedVal, true, .concat, .cast type, "        ", ""⟩,
       ⟨field.number, r, f, .anyVal, true, .appendOne, .cast type, "        ", "\n"⟩]
    else
      [⟨field.number, r, f, .anyVal, false, .replace, .cast type, "", ""⟩]

/-! ## First-match interpretation of the decode clauses

The generated clauses are the alternatives of the callback that
`protocol_buffers:decode/3` invokes with a field number, a tagged payload and
the record built so far.  The interpretation below follows one field of the
record: `cur` is the value of `Rec#rec.field`. -/

/-- Erlang values as far as the clauses distinguish them: an element or a list
of values. -/
inductive Term (α : Type) where
  | val (a : α) : Term α
  | list (xs : List (Term α)) : Term α

/-- The tagged payload of a wire entry: a length-encoded aggregate (with the
elements it carries), a varint, or another single primitive shape. -/
inductive Payload (α : Type) where
  | length_encoded (elems : List α) : Payload α
  | varint (a : α) : Payload α
  | fixed (a : α) : Payload α

/-- The elements one wire entry carries. -/
def Payload.elems {α : Type} : Payload α → List α
  | .length_encoded xs => xs
  | .varint a => [a]
  | .fixed a => [a]

/-- The elements of a sequence of wire entries, in arrival order. -/
def allElems {α : Type} : List (Payload α) → List α
  | [] => []
  | p :: ps => p.elems ++ allElems ps

/-- The functions the clause bodies call: `protocol_buffers:cast/2` of the
runtime library and the generated one-argument functions (`to_enum`, decode
implementations), applied to what the payload pattern binds. -/
structure Runtime (α : Type) where
  cast : String → Payload α → Term α
  call : String → Payload α → Term α

/-- Does the payload pattern match the payload. -/
def PayloadPattern.matchesPayload {α : Type} : PayloadPattern → Payload α → Bool
  | .anyVal, _ => true
  | .lengthEncodedVal, .length_encoded _ => true
  | .lengthEncodedBin, .length_encoded _ => true
  | .varintEnum, .varint _ => true
  | _, _ => false

/-- The guard `is_list(F)`. -/
def Term.isList {α : Type} : Term α → Bool
  | .list _ => true
  | .val _ => false

/-- Does the clause head accept the call: the literal field number, the payload
pattern and, for `#rec{field=F}=Rec when is_list(F)`, the guard. -/
def DecodeClause.accepts {α : Type} (c : DecodeClause) (n : Int) (p : Payload α)
    (cur : Term α) : Bool :=
  decide (c.id = n) && c.pattern.matchesPayload p && (!c.listGuard || cur.isList)

/-- The new value of the field computed by the clause body; `none` when `++`
is applied to something that is not a list. -/
def DecodeClause.eval {α : Type} (rt : Runtime α) (c : DecodeClause) (p : Payload α)
    (cur : Term α) : Option (Term α) :=
  let e := match c.expr with
    | .cast type => rt.cast type p
    | .call fn => rt.call fn p
  match c.update with
  | .replace => some e
  | .appendOne =>
    match cur with
    | .list xs => some (.list (xs ++ [e]))
    | .val _ => none
  | .concat =>
    match cur, e with
    | .list xs, .list ys => some (.list (xs ++ ys))
    | _, _ => none

/-- First-match dispatch over the clauses, in emission order; `none` when no
clause accepts the call. -/
def dispatch {α : Type} (rt : Runtime α) :
    List DecodeClause → Int → Payload α → Term α → Option (Term α)
  | [], _, _, _ => none
  | c :: cs, n, p, cur =>
    if c.accepts n p cur then c.eval rt p cur else dispatch rt cs n p cur

/-- Folding a sequence of wire entries through the dispatch, in arrival
order. -/
def decodeFold {α : Type} (rt : Runtime α) (cs : List DecodeClause) :
    List (Int × Payload α) → Term α → Option (Term α)
  | [], cur => some cur
  | (n, p) :: es, cur =>
    match dispatch rt cs n p cur with
    | some next => decodeFold rt cs es next
    | none => none

/-- The runtime of the examples: `cast` of a length-encoded payload is the list
of its elements, `cast` of a single primitive is that element. -/
def sampleRuntime : Runtime Int where
  cast := fun _ p =>
    match p with
    | .length_encoded xs => .list (xs.map .val)
    | .varint a => .val a
    | .fixed a => .val a
  call := fun _ p =>
    match p with
    | .length_encoded xs => .list (xs.map .val)
    | .varint a => .val a
    | .fixed a => .val a

/-- A repeated `int32` field declared `[packed=true]`. -/
def sampleRepeatedInt32 : FieldDescriptor :=
  ⟨"xs", 1, .TYPE_INT32, true, true, "m", "", ""⟩

/-! ## Structured view of the emitted encode fragments -/

/-- The two shapes of an encode fragment. -/
inductive EncodeShape where
  /-- One call `protocol_buffers:encode(id,type,E(R#rec.field))` on the whole
  field value. -/
  | wholeValue
  /-- A comprehension `[protocol_buffers:encode(id,type,E(X)) || X <- R#rec.field]`:
  one call per element. -/
  | perElement
  deriving DecidableEq, Repr

/-- One encode fragment.  `wireType` is the second argument of
`protocol_buffers:encode`, `wrap` the generated function applied to the value
first (`from_enum`, nested `encode`), `gap` the white space printed after `[`. -/
structure EncodeFragment where
  id : Int
  recName : String
  field : String
  wireType : String
  wrap : Option String
  shape : EncodeShape
  gap : String
  deriving DecidableEq, Repr

/-- The third argument of the encode call over the expression `v`. -/
def EncodeFragment.argText (e : EncodeFragment) (v : String) : String :=
  match e.wrap with
  | none => v
  | some fn => fn ++ "(" ++ v ++ ")"

/-- Text of one encode fragment. -/
def EncodeFragment.render (nm : Naming) (e : EncodeFragment) : String :=
  match e.shape with
  | .wholeValue =>
    "    protocol_buffers:encode(" ++ nm.int_to_string e.id ++ "," ++ e.wireType ++ ","
      ++ e.argText ("R#" ++ e.recName ++ "." ++ e.field) ++ ")"
  | .perElement =>
    "    [" ++ e.gap ++ "protocol_buffers:encode(" ++ nm.int_to_string e.id ++ ","
      ++ e.wireType ++ "," ++ e.argText "X" ++ ") || X <- R#" ++ e.recName ++ "."
      ++ e.field ++ "]"

/-- The fragment the encode loop emits for a field, following the branches of
its `switch`. -/
def encodeFragmentOf (nm : Naming) (field : FieldDescriptor) : EncodeFragment :=
  let r := nm.to_atom (nm.normalized_scope field.containing_type)
  let f := nm.to_atom field.name
  let type := nm.kTypeToName field.type
  match field.type with
  | .TYPE_ENUM =>
    let from_enum := nm.from_enum_name field.enum_type
    if field.is_repeated then ⟨field.number, r, f, "int32", some from_enum, .perElement, ""⟩
    else ⟨field.number, r, f, "int32", some from_enum, .wholeValue, ""⟩
  | .TYPE_MESSAGE =>
    let encode := nm.encode_name field.message_type
    if field.is_repeated then
      ⟨field.number, r, f, "length_encoded", some encode, .perElement, " "⟩
    else ⟨field.number, r, f, "length_encoded", some encode, .wholeValue, ""⟩
  | .TYPE_BYTES | .TYPE_STRING =>
    if field.is_repeated then ⟨field.number, r, f, "length_encoded", none, .perElement, " "⟩
    else ⟨field.number, r, f, "length_encoded", none, .wholeValue, ""⟩
  | _ => ⟨field.number, r, f, type, none, .wholeValue, ""⟩

/-- The calls of `protocol_buffers:encode` a fragment makes on a field value,
each with its field number, wire type and argument; `apply` interprets the
generated one-argument functions.  A comprehension over something that is not
a list has no value. -/
def EncodeFragment.calls {α : Type} (apply : String → Term α → Term α) (e : EncodeFragment)
    (value : Term α) : Option (List (Int × String × Term α)) :=
  let arg := fun v : Term α =>
    match e.wrap with
    | none => v
    | some fn => apply fn v
  match e.shape with
  | .wholeValue => some [(e.id, e.wireType, arg value)]
  | .perElement =>
    match value with
    | .list xs => some (xs.map (fun x => (e.id, e.wireType, arg x)))
    | .val _ => none

/-- The message with its group-typed fields removed. -/
def Descriptor.withoutGroupFields : Descriptor → Descriptor
  | .mk n fs nested enums => .mk n (fs.filter (fun f => f.type != .TYPE_GROUP)) nested enums

/-- A singular group field `g` of message `m`; its group type is the nested
message `m_G`. -/
def sampleGroupField : FieldDescriptor :=
  ⟨"g", 2, .TYPE_GROUP, false, false, "m", "m_G", ""⟩

/-- A singular `int32` field. -/
def sampleInt32Field : FieldDescriptor :=
  ⟨"x", 3, .TYPE_INT32, false, false, "m", "", ""⟩

/-- A singular message field referencing the message type `sub`. -/
def sampleMessageField : FieldDescriptor :=
  ⟨"s", 4, .TYPE_MESSAGE, false, false, "m", "sub", ""⟩

/-- A message `m` whose first field is a group, followed by an `int32`
field; the group's own type `m_G` is nested in `m`. -/
def sampleGroupMessage : Descriptor :=
  .mk "m" [sampleGroupField, sampleInt32Field] [.mk "m_G" [] [] []] []

/-- The message type `sub`, without fields. -/
def sampleSubMessage : Descriptor :=
  .mk "sub" [] [] []

/-! ## Structured view of the export list and of the codec order -/

/-- A type declared in a file or nested in a message. -/
inductive TypeDecl where
  | enumType (e : EnumDescriptor) : TypeDecl
  | messageType (d : Descriptor) : TypeDecl

/-- The symbol pair that identifies a type: `to_enum`/`from_enum` of an enum,
`encode`/`decode` of a message. -/
def symbolPair (nm : Naming) : TypeDecl → String × String
  | .enumType e => (nm.to_enum_name e.full_name, nm.from_enum_name e.full_name)
  | .messageType d => (nm.encode_name d.full_name, nm.decode_name d.full_name)

/-- The two `name/arity` items a type contributes to the export list. -/
def exportItems (nm : Naming) (t : TypeDecl) : List String :=
  [(symbolPair nm t).1 ++ "/1", (symbolPair nm t).2 ++ "/1"]

/-- The text printed for one type of the export list: its two items, indented
and separated by a comma. -/
def exportPairText (nm : Naming) (t : TypeDecl) : String :=
  "  " ++ ((symbolPair nm t).1 ++ "/1") ++ "," ++ ((symbolPair nm t).2 ++ "/1")

/-- All export items of a sequence of types, in order. -/
def exportItemsOf (nm : Naming) : List TypeDecl → List String
  | [] => []
  | t :: ts => exportItems nm t ++ exportItemsOf nm ts

mutual
/-- The types whose pairs `export_for_message` prints, in printing order:
nested messages (recursively), nested enums, the message itself. -/
def exportOrder : Descriptor → List TypeDecl
  | .mk n fs nested enums =>
    exportOrderNested nested ++ enums.map TypeDecl.enumType
      ++ [TypeDecl.messageType (.mk n fs nested enums)]
/-- Printing order of the first loop of `export_for_message`. -/
def exportOrderNested : List Descriptor → List TypeDecl
  | [] => []
  | d :: ds => exportOrder d ++ exportOrderNested ds
end

mutual
/-- The types whose codecs `encode_decode_for_message` prints, in printing
order: nested enums, nested messages (recursively), the message itself. -/
def codecOrder : Descriptor → List TypeDecl
  | .mk n fs nested enums =>
    enums.map TypeDecl.enumType ++ codecOrderNested nested
      ++ [TypeDecl.messageType (.mk n fs nested enums)]
/-- Printing order of the second loop of `encode_decode_for_message`. -/
def codecOrderNested : List Descriptor → List TypeDecl
  | [] => []
  | d :: ds => codecOrder d ++ codecOrderNested ds
end

/-- The codec text of one type alone: both mapping functions of an enum, the
decode and encode functions of a message. -/
def ownCodecText (nm : Naming) : TypeDecl → String
  | .enumType e => encode_decode_for_enum nm e
  | .messageType d => message_own_codec nm d

/-- Concatenation of texts. -/
def concatAll : List String → String
  | [] => ""
  | x :: xs => x ++ concatAll xs

/-- The types of the export list of a file, in printing order: top-level
enums, then the export order of each top-level message. -/
def fileExportOrder (file : FileDescriptor) : List TypeDecl :=
  file.enum_types.map TypeDecl.enumType ++ exportOrderNested file.message_types

/-- The types of the codec definitions of a file, in printing order: top-level
enums, then the codec order of each top-level message. -/
def fileCodecOrder (file : FileDescriptor) : List TypeDecl :=
  file.enum_types.map TypeDecl.enumType ++ codecOrderNested file.message_types

mutual
/-- The types of the nested-inclusive subtree of a message, by declaration: the
message, its nested enums, then the subtrees of its nested messages. -/
def subtreeTypes : Descriptor → List TypeDecl
  | .mk n fs nested enums =>
    TypeDecl.messageType (.mk n fs nested enums)
      :: (enums.map TypeDecl.enumType ++ subtreeTypesNested nested)
/-- The subtrees of a sequence of messages. -/
def subtreeTypesNested : List Descriptor → List TypeDecl
  | [] => []
  | d :: ds => subtreeTypes d ++ subtreeTypesNested ds
end

mutual
/-- The number of types in the nested-inclusive subtree of a message. -/
def typeCount : Descriptor → Nat
  | .mk _ _ nested enums => 1 + enums.length + typeCountNested nested
/-- The number of types in the subtrees of a sequence of messages. -/
def typeCountNested : List Descriptor → Nat
  | [] => 0
  | d :: ds => typeCount d + typeCountNested ds
end

mutual
/-- No message of the subtree declares both nested messages and nested
enums. -/
def unmixed : Descriptor → Bool
  | .mk _ _ nested enums => (nested.isEmpty || enums.isEmpty) && unmixedNested nested
/-- Every message of the sequence is `unmixed`. -/
def unmixedNested : List Descriptor → Bool
  | [] => true
  | d :: ds => unmixed d && unmixedNested ds
end

/-- An enum `m_e` nested in `m`. -/
def sampleNestedEnum : EnumDescriptor :=
  ⟨"m_e", [⟨"A", 0⟩, ⟨"B", 1⟩]⟩

/-- A message `m` that declares a nested message `m_sub` and a nested enum
`m_e`. -/
def sampleNestingMessage : Descriptor :=
  .mk "m" [] [.mk "m_sub" [] [] []] [sampleNestedEnum]

/-- A file whose only top-level type is `sampleNestingMessage`. -/
def sampleFile : FileDescriptor :=
  ⟨"f", [], [], [sampleNestingMessage]⟩

/-- The enum `u_a_e` nested in `u_a`. -/
def sampleInnerEnum : EnumDescriptor :=
  ⟨"u_a_e", [⟨"A", 0⟩]⟩

/-- The message `u_a`, which declares `sampleInnerEnum`. -/
def sampleInnerMessage : Descriptor :=
  .mk "u_a" [] [] [sampleInnerEnum]

/-- A message `u` that declares two nested messages, one of them with a
nested enum, and no nested enum of its own. -/
def sampleUnmixedMessage : Descriptor :=
  .mk "u" [] [sampleInnerMessage, .mk "u_b" [] [] []] []

/-- A file with a top-level enum and `sampleUnmixedMessage`. -/
def sampleUnmixedFile : FileDescriptor :=
  ⟨"f", [], [⟨"top_e", [⟨"X", 1⟩]⟩], [sampleUnmixedMessage]⟩

/-- The identifiers derived for a sequence of types, in order: both symbols of
each type. -/
def symbolNamesOf (nm : Naming) : List TypeDecl → List String
  | [] => []
  | t :: ts => (symbolPair nm t).1 :: (symbolPair nm t).2 :: symbolNamesOf nm ts

/-! ## Structured view of the enum mapping functions -/

/-- An argument pattern or a result of an enum mapping clause: an integer
literal or an atom (by its text; the sentinel is the atom `undefined`). -/
inductive EnumTerm where
  | int (n : Int) : EnumTerm
  | atom (text : String) : EnumTerm
  deriving DecidableEq, Repr

/-- One clause `fn(arg) -> result` with the terminator printed after it
(`";\n"` or `".\n\n"`). -/
structure EnumClause where
  fn : String
  arg : EnumTerm
  result : EnumTerm
  terminator : String
  deriving DecidableEq, Repr

/-- Text of an integer literal or atom. -/
def EnumTerm.text (nm : Naming) : EnumTerm → String
  | .int n => nm.int_to_string n
  | .atom s => s

/-- Text of one enum mapping clause. -/
def EnumClause.render (nm : Naming) (c : EnumClause) : String :=
  c.fn ++ "(" ++ c.arg.text nm ++ ") -> " ++ c.result.text nm ++ c.terminator

/-- The `to_enum` clauses of `encode_decode_for_enum`, in emission order: one
per declared value, then the `undefined` clause. -/
def toEnumClauses (nm : Naming) (d : EnumDescriptor) : List EnumClause :=
  d.values.map (fun v =>
      ⟨nm.to_enum_name d.full_name, .int v.number, .atom (nm.to_atom v.name), ";\n"⟩)
    ++ [⟨nm.to_enum_name d.full_name, .atom "undefined", .atom "undefined", ".\n\n"⟩]

/-- The `from_enum` clauses of `encode_decode_for_enum`, in emission order: one
per declared value, then the `undefined` clause. -/
def fromEnumClauses (nm : Naming) (d : EnumDescriptor) : List EnumClause :=
  d.values.map (fun v =>
      ⟨nm.from_enum_name d.full_name, .atom (nm.to_atom v.name), .int v.number, ";\n"⟩)
    ++ [⟨nm.from_enum_name d.full_name, .atom "undefined", .atom "undefined", ".\n\n"⟩]

/-- The reserved words of Erlang: written without quotes they are not atoms. -/
def erlangReservedWords : List String :=
  ["after", "and", "andalso", "band", "begin", "bnot", "bor", "bsl", "bsr", "bxor", "case",
   "catch", "cond", "div", "end", "fun", "if", "let", "maybe", "not", "of", "or", "orelse",
   "receive", "rem", "try", "when", "xor"]

/-- The characters of an unquoted atom after its first one. -/
def isAtomChar (c : Char) : Bool :=
  c.isAlphanum || c == Char.ofNat 95 || c == Char.ofNat 64

/-- The atom an emitted text denotes in Erlang, if it denotes one: a text in
single quotes denotes the atom named by what is between the quotes, a text that
starts with a lower-case letter, continues with letters, digits, `_` or `@` and
is not a reserved word denotes the atom of that name.  Any other text (one that
starts with an upper-case letter or `_` is a variable) denotes no atom. -/
def atomName (text : String) : Option String :=
  match text.data with
  | [] => none
  | c :: cs =>
    if c = Char.ofNat 39 then
      match cs.reverse with
      | [] => none
      | q :: innerRev =>
        if q = Char.ofNat 39
            ∧ innerRev.all (fun x => x != Char.ofNat 39 && x != Char.ofNat 92) = true then
          some (String.mk innerRev.reverse)
        else none
    else if c.isLower && cs.all isAtomChar && !erlangReservedWords.contains text then
      some text
    else none

/-- The values the enum mapping functions take and return: an integer or an
atom, by its name; the sentinel is the atom named `undefined`. -/
inductive EnumValue where
  | int (n : Int) : EnumValue
  | atom (name : String) : EnumValue
  deriving DecidableEq, Repr

/-- The value an emitted pattern or result denotes: the integer of an integer
literal, the atom of a text that denotes one; `none` for a text that is not an
atom. -/
def EnumTerm.denote : EnumTerm → Option EnumValue
  | .int n => some (.int n)
  | .atom text => (atomName text).map EnumValue.atom

/-- Both the pattern and the result of the clause denote a value. -/
def EnumClause.wellFormed (c : EnumClause) : Bool :=
  c.arg.denote.isSome && c.result.denote.isSome

/-- First-match application of clauses to a value: the result of the first
clause whose pattern denotes the value, `none` when no clause matches. -/
def matchEnumClauses : List EnumClause → EnumValue → Option EnumValue
  | [], _ => none
  | c :: cs, x => if c.arg.denote = some x then c.result.denote else matchEnumClauses cs x

/-- The function `to_enum` emitted for an enum, applied to a value.  The two
mapping functions are printed together; they have values only when every
pattern and result of both denotes a value (a name printed as a variable is
unbound in the body of its `to_enum` clause). -/
def evalToEnum (nm : Naming) (d : EnumDescriptor) (x : EnumValue) : Option EnumValue :=
  if (toEnumClauses nm d ++ fromEnumClauses nm d).all EnumClause.wellFormed then
    matchEnumClauses (toEnumClauses nm d) x
  else none

/-- The function `from_enum` emitted for an enum, applied to a value; see
`evalToEnum`. -/
def evalFromEnum (nm : Naming) (d : EnumDescriptor) (x : EnumValue) : Option EnumValue :=
  if (toEnumClauses nm d ++ fromEnumClauses nm d).all EnumClause.wellFormed then
    matchEnumClauses (fromEnumClauses nm d) x
  else none

/-- The sample naming with every name printed as a quoted atom. -/
def quotingNaming : Naming :=
  { sampleNaming with
    to_atom := fun s => String.singleton (Char.ofNat 39) ++ s ++ String.singleton (Char.ofNat 39) }

/-- An enum with non-contiguous numbers, one of them declared twice. -/
def sampleAliasEnum : EnumDescriptor :=
  ⟨"e", [⟨"A", 0⟩, ⟨"B", 5⟩, ⟨"C", 5⟩]⟩

/-- An enum with lower-case names and non-contiguous numbers, one of them
declared twice. -/
def sampleLowerAliasEnum : EnumDescriptor :=
  ⟨"e", [⟨"a", 0⟩, ⟨"b", 5⟩, ⟨"c", 5⟩]⟩

/-- An enum that declares a value named `undefined`. -/
def sampleUndefinedEnum : EnumDescriptor :=
  ⟨"e", [⟨"undefined", 0⟩, ⟨"a", 1⟩]⟩

/-! ## Structured view of a message's decode and encode functions -/

/-- The argument pattern of a clause of the decode implementation. -/
inductive BinaryPattern where
  /-- Pattern `<<>>`: the empty binary. -/
  | emptyBinary
  /-- Pattern `Binary`: any argument. -/
  | anyBinary
  deriving DecidableEq, Repr

/-- The body of a clause of the decode implementation. -/
inductive ImplBody where
  /-- Body `undefined`. -/
  | undefinedAtom
  /-- Body `protocol_buffers:decode(Binary,#msg{},fun ... end)`; `alternatives`
  is what the decode loop printed between `fun` and `end`: for every field its
  clauses (none for a group field), the fields separated by `";\n        "`. -/
  | runtimeDecode (msg : String) (alternatives : List (List DecodeClause))
  deriving DecidableEq, Repr

/-- One clause of the decode implementation. -/
structure ImplClause where
  pattern : BinaryPattern
  body : ImplBody
  deriving DecidableEq, Repr

/-- The two decode functions of a message: the exported wrapper
`function(B) -> case function_impl(B) of undefined -> #msg{}; Any -> Any end`
and the clauses of `function_impl`. -/
structure DecodeFunctions where
  function : String
  function_impl : String
  msg : String
  implClauses : List ImplClause
  deriving DecidableEq, Repr

/-- Text of a binary pattern. -/
def BinaryPattern.text : BinaryPattern → String
  | .emptyBinary => "<<>>"
  | .anyBinary => "Binary"

/-- Text between `fun` and `end`: the clauses of each field joined by `";\n"`,
the fields joined by `";\n        "`. -/
def renderAlternatives (nm : Naming) (alternatives : List (List DecodeClause)) : String :=
  joinWith ";\n        "
    (alternatives.map (fun a => joinWith ";\n" (a.map (DecodeClause.render nm))))

/-- Text of a clause of the decode implementation. -/
def ImplClause.render (nm : Naming) (function_impl : String) (c : ImplClause) : String :=
  function_impl ++ "(" ++ c.pattern.text ++ ") ->"
    ++ (match c.body with
        | .undefinedAtom => " undefined"
        | .runtimeDecode msg alternatives =>
          "\n  protocol_buffers:decode(Binary,#" ++ msg ++ "\x7b\x7d,\n     fun"
            ++ renderAlternatives nm alternatives ++ "\n      end)")

/-- Text of the decode functions: the wrapper, then the implementation clauses
separated by `";\n"` and closed by `"."`. -/
def DecodeFunctions.render (nm : Naming) (fns : DecodeFunctions) : String :=
  fns.function ++ "(B) ->\n  case " ++ fns.function_impl ++ "(B) of\n    undefined -> #"
    ++ fns.msg ++ "\x7b\x7d;\n    Any -> Any\n  end.\n\n"
    ++ joinWith ";\n" (fns.implClauses.map (ImplClause.render nm fns.function_impl))
    ++ ".\n\n"

/-- The decode functions `encode_decode_for_message` prints for a message. -/
def decodeFunctionsOf (nm : Naming) (d : Descriptor) : DecodeFunctions :=
  let msg := nm.to_atom (nm.normalized_scope d.full_name)
  ⟨nm.decode_name d.full_name, nm.decode_impl_name d.full_name, msg,
    [⟨.emptyBinary, .undefinedAtom⟩,
     ⟨.anyBinary, .runtimeDecode msg (d.fields.map (decodeClauses nm))⟩]⟩

/-- What a decode function returns: `undefined`, the default record `#msg{}`,
or a value produced by `protocol_buffers:decode`. -/
inductive DecodeValue (ρ : Type) where
  | undefined : DecodeValue ρ
  | defaultRecord (msg : String) : DecodeValue ρ
  | decoded (r : ρ) : DecodeValue ρ
  deriving DecidableEq, Repr

/-- Does the pattern match the binary (a sequence of bytes). -/
def BinaryPattern.matchesBinary : BinaryPattern → List Nat → Bool
  | .emptyBinary, b => b.isEmpty
  | .anyBinary, _ => true

/-- Is the `fun ... end` expression Erlang: it has at least one alternative and
no alternative is empty (`fun end`, `fun;`, `;;` and `; end` are not). -/
def funWellFormed (alternatives : List (List DecodeClause)) : Bool :=
  !alternatives.isEmpty && alternatives.all (fun a => !a.isEmpty)

/-- Is the clause of the decode implementation Erlang. -/
def ImplClause.wellFormed (c : ImplClause) : Bool :=
  match c.body with
  | .undefinedAtom => true
  | .runtimeDecode _ alternatives => funWellFormed alternatives

/-- First-match selection among the implementation clauses on a binary.
`runtimeDecode bytes msg` stands for `protocol_buffers:decode` started from
`#msg{}`; the flag tells whether it was invoked. -/
def matchImplClauses {ρ : Type} (runtimeDecode : List Nat → String → DecodeValue ρ) :
    List ImplClause → List Nat → Option (DecodeValue ρ × Bool)
  | [], _ => none
  | c :: cs, b =>
    if c.pattern.matchesBinary b then
      match c.body with
      | .undefinedAtom => some (.undefined, false)
      | .runtimeDecode msg _ => some (runtimeDecode b msg, true)
    else matchImplClauses runtimeDecode cs b

/-- Evaluation of the decode implementation on a binary: first match among its
clauses when every clause is Erlang; `none` when one is not, as the function
definition then does not compile. -/
def evalImplClauses {ρ : Type} (runtimeDecode : List Nat → String → DecodeValue ρ)
    (cs : List ImplClause) (b : List Nat) : Option (DecodeValue ρ × Bool) :=
  if cs.all ImplClause.wellFormed then matchImplClauses runtimeDecode cs b else none

/-- Evaluation of the exported decode wrapper: `undefined` from the
implementation becomes `#msg{}`, any other value is returned as it is. -/
def DecodeFunctions.decode {ρ : Type} (runtimeDecode : List Nat → String → DecodeValue ρ)
    (fns : DecodeFunctions) (b : List Nat) : Option (DecodeValue ρ × Bool) :=
  match evalImplClauses runtimeDecode fns.implClauses b with
  | none => none
  | some (.undefined, invoked) => some (.defaultRecord fns.msg, invoked)
  | some (v, invoked) => some (v, invoked)

/-- The argument pattern of a clause of the encode function. -/
inductive EncodePattern where
  /-- Pattern `undefined`. -/
  | undefinedAtom
  /-- Pattern `R when is_record(R,rec)`. -/
  | recordOf (recName : String)
  deriving DecidableEq, Repr

/-- The body of a clause of the encode function. -/
inductive EncodeBody where
  /-- Body `undefined`. -/
  | undefinedAtom
  /-- Body: the list of the field fragments. -/
  | fragmentList (fragments : List EncodeFragment)
  deriving DecidableEq, Repr

/-- One clause of the encode function. -/
structure EncodeClause where
  pattern : EncodePattern
  body : EncodeBody
  deriving DecidableEq, Repr

/-- Text of a clause of the encode function. -/
def EncodeClause.render (nm : Naming) (function : String) (c : EncodeClause) : String :=
  function
    ++ (match c.pattern with
        | .undefinedAtom => "(undefined) ->"
        | .recordOf r => "(R) when is_record(R," ++ r ++ ") ->")
    ++ (match c.body with
        | .undefinedAtom => " undefined"
        | .fragmentList fragments =>
          "\n  [\n" ++ joinWith ",\n" (fragments.map (EncodeFragment.render nm)) ++ "\n  ]")

/-- The clauses of the encode function `encode_decode_for_message` prints for
a message, in emission order. -/
def encodeClausesOf (nm : Naming) (d : Descriptor) : List EncodeClause :=
  [⟨.undefinedAtom, .undefinedAtom⟩,
   ⟨.recordOf (nm.to_atom (nm.normalized_scope d.full_name)),
    .fragmentList (d.fields.map (encodeFragmentOf nm))⟩]

/-- The argument of an encode function: the atom `undefined` or a record with
its name and field values. -/
inductive EncodeInput (α : Type) where
  | undefined : EncodeInput α
  | record (recName : String) (fields : String → Term α) : EncodeInput α

/-- Does the clause head accept the argument. -/
def EncodePattern.matchesInput {α : Type} : EncodePattern → EncodeInput α → Bool
  | .undefinedAtom, .undefined => true
  | .recordOf r, .record name _ => decide (r = name)
  | _, _ => false

/-- The result of an encode function: `undefined`, or for each fragment the
encode calls it made. -/
inductive EncodeResult (α : Type) where
  | undefined : EncodeResult α
  | entries (calls : List (List (Int × String × Term α))) : EncodeResult α

/-- The encode calls of a list of fragments on a record, in order; `none` when
a fragment has no value. -/
def evalFragments {α : Type} (apply : String → Term α → Term α) (fields : String → Term α) :
    List EncodeFragment → Option (List (List (Int × String × Term α)))
  | [] => some []
  | e :: es =>
    match e.calls apply (fields e.field), evalFragments apply fields es with
    | some c, some cs => some (c :: cs)
    | _, _ => none

/-- First-match evaluation of the encode clauses on an argument: the result and
the fragments that were evaluated for it. -/
def evalEncodeClauses {α : Type} (apply : String → Term α → Term α) :
    List EncodeClause → EncodeInput α → Option (EncodeResult α × List EncodeFragment)
  | [], _ => none
  | c :: cs, x =>
    if c.pattern.matchesInput x then
      match c.body, x with
      | .undefinedAtom, _ => some (.undefined, [])
      | .fragmentList fragments, .record _ fields =>
        (evalFragments apply fields fragments).map (fun r => (.entries r, fragments))
      | .fragmentList _, .undefined => none
    else evalEncodeClauses apply cs x

/-- A message `m` with a repeated packed `int32` field, a singular `int32`
field and a singular message field. -/
def sampleFieldsMessage : Descriptor :=
  .mk "m" [sampleRepeatedInt32, sampleInt32Field, sampleMessageField] [] []

/-! ## The clauses of a whole message and dispatch on a record -/

/-- The clauses of the dispatch function of a message, in emission order: the
clauses of each field, in field order. -/
def messageDecodeClauses (nm : Naming) : List FieldDescriptor → List DecodeClause
  | [] => []
  | f :: fs => decodeClauses nm f ++ messageDecodeClauses nm fs

/-- The record with one field replaced. -/
def setField {α : Type} (fields : String → Term α) (name : String) (v : Term α) :
    String → Term α :=
  fun k => if k = name then v else fields k

/-- First-match dispatch of a wire entry over clauses of several fields, on a
record given by its field values: the first clause whose head accepts the
entry updates its own field. -/
def dispatchRecord {α : Type} (rt : Runtime α) :
    List DecodeClause → Int → Payload α → (String → Term α) → Option (String → Term α)
  | [], _, _, _ => none
  | c :: cs, n, p, r =>
    if c.accepts n p (r c.field) then (c.eval rt p (r c.field)).map (setField r c.field)
    else dispatchRecord rt cs n p r

/-- A repeated string field. -/
def sampleRepeatedString : FieldDescriptor :=
  ⟨"names", 5, .TYPE_STRING, true, false, "m", "", ""⟩

/-- A file with one top-level enum and no message. -/
def sampleEnumOnlyFile : FileDescriptor :=
  ⟨"f", [], [⟨"top_e", [⟨"X", 1⟩]⟩], []⟩

/-- A message whose first field accepts any payload shape: a singular string
field numbered 1, then a singular message field numbered 2. -/
def sampleShapesMessage : Descriptor :=
  .mk "m" [⟨"title", 1, .TYPE_STRING, false, false, "m", "", ""⟩,
           ⟨"s", 2, .TYPE_MESSAGE, false, false, "m", "sub", ""⟩] [] []

/-- The codec text of one type, as the rendering of its structured view: the
clauses of both mapping functions of an enum; the decode functions and the
encode clauses of a message. -/
def renderedCodec (nm : Naming) : TypeDecl → String
  | .enumType e =>
    concatAll ((toEnumClauses nm e).map (EnumClause.render nm))
      ++ concatAll ((fromEnumClauses nm e).map (EnumClause.render nm))
  | .messageType d =>
    (decodeFunctionsOf nm d).render nm
      ++ (joinWith ";\n" ((encodeClausesOf nm d).map
            (EncodeClause.render nm (nm.encode_name d.full_name))) ++ ".\n\n")

/-! ## Properties -/

set_option maxHeartbeats 4000000 in
/-- The text appended by `field_to_decode_function` is the rendering of
`decodeClauses`, consecutive clauses separated by `";\n"`. -/
theorem field_to_decode_function_eq_render (nm : Naming) (field : FieldDescriptor) :
    field_to_decode_function nm field
      = joinWith ";\n" ((decodeClauses nm field).map (DecodeClause.render nm)) := by
  unfold field_to_decode_function decodeClauses
  cases h : field.type <;> cases hr : field.is_repeated <;>
    simp only [joinWith, DecodeClause.render, DecodeExpr.text, PayloadPattern.text,
      PayloadPattern.var, List.map, if_true, if_false, reduceCtorEq, Bool.false_eq_true] <;>
    (apply String.ext
     simp only [String.data_append, List.append_assoc, List.cons_append, List.nil_append,
       List.append_nil])

/-- The two clauses emitted for a repeated field of a packable type. -/
theorem decodeClauses_repeated_packable (nm : Naming) (field : FieldDescriptor)
    (hrep : field.is_repeated = true) (hpk : field.type.isPackable = true) :
    decodeClauses nm field =
      [⟨field.number, nm.to_atom (nm.normalized_scope field.containing_type),
          nm.to_atom field.name, .lengthEncodedVal, true, .concat,
          .cast (nm.kTypeToName field.type), "        ", ""⟩,
       ⟨field.number, nm.to_atom (nm.normalized_scope field.containing_type),
          nm.to_atom field.name, .anyVal, true, .appendOne,
          .cast (nm.kTypeToName field.type), "        ", "\n"⟩] := by
  unfold decodeClauses
  cases h : field.type <;> simp [h, FieldType.isPackable] at hpk <;> simp [hrep]

/-- C1: for a repeated field of a packable type, whatever its packed option,
`field_to_decode_function` emits exactly two clauses keyed on the field's
number: first the `{length_encoded,_}` clause that concatenates the cast, then
the any-payload clause that appends the one-element list of the cast. -/
theorem C1_repeated_packable_two_clauses (nm : Naming) (field : FieldDescriptor)
    (hrep : field.is_repeated = true) (hpk : field.type.isPackable = true) :
    let r := nm.to_atom (nm.normalized_scope field.containing_type)
    let f := nm.to_atom field.name
    let type := nm.kTypeToName field.type
    let packedClause : DecodeClause :=
      ⟨field.number, r, f, .lengthEncodedVal, true, .concat, .cast type, "        ", ""⟩
    let singleClause : DecodeClause :=
      ⟨field.number, r, f, .anyVal, true, .appendOne, .cast type, "        ", "\n"⟩
    decodeClauses nm field = [packedClause, singleClause]
      ∧ field_to_decode_function nm field
          = packedClause.render nm ++ ";\n" ++ singleClause.render nm
      ∧ ∀ b : Bool, field_to_decode_function nm { field with packed := b }
          = field_to_decode_function nm field := by
  intro r f type packedClause singleClause
  have h1 : decodeClauses nm field = [packedClause, singleClause] :=
    decodeClauses_repeated_packable nm field hrep hpk
  refine ⟨h1, ?_, ?_⟩
  · rw [field_to_decode_function_eq_render, h1]; rfl
  · intro b; rfl

/-- C1 at a repeated packed `int32` field numbered 1: the emitted text. -/
theorem C1_repeated_packable_two_clauses_witness :
    sampleRepeatedInt32.is_repeated = true ∧ sampleRepeatedInt32.type.isPackable = true
      ∧ field_to_decode_function sampleNaming sampleRepeatedInt32
          = "        (1,\x7blength_encoded,_\x7d=Val,#m\x7bxs=F\x7d=Rec) when is_list(F) -> Rec#m\x7bxs = Rec#m.xs ++ protocol_buffers:cast(int32,Val)\x7d;\n        (1,Val,#m\x7bxs=F\x7d=Rec) when is_list(F) -> Rec#m\x7bxs = Rec#m.xs ++ [protocol_buffers:cast(int32,Val)]\x7d\n" :=
  ⟨rfl, rfl,
    (C1_repeated_packable_two_clauses sampleNaming sampleRepeatedInt32 rfl rfl).2.1.trans
      (by rfl)⟩

/-- One dispatch step on a repeated packable field appends the elements of the
entry. -/
theorem dispatch_repeated_packable {α : Type} (nm : Naming) (rt : Runtime α)
    (field : FieldDescriptor)
    (hrep : field.is_repeated = true) (hpk : field.type.isPackable = true)
    (hpacked : ∀ xs, rt.cast (nm.kTypeToName field.type) (.length_encoded xs)
        = .list (xs.map .val))
    (hvarint : ∀ a, rt.cast (nm.kTypeToName field.type) (.varint a) = .val a)
    (hfixed : ∀ a, rt.cast (nm.kTypeToName field.type) (.fixed a) = .val a)
    (p : Payload α) (acc : List α) :
    dispatch rt (decodeClauses nm field) field.number p (.list (acc.map .val))
      = some (.list ((acc ++ p.elems).map .val)) := by
  rw [decodeClauses_repeated_packable nm field hrep hpk]
  cases p <;>
    simp [dispatch, DecodeClause.accepts, DecodeClause.eval, PayloadPattern.matchesPayload,
      Term.isList, Payload.elems, hpacked, hvarint, hfixed]

/-- Folding entries of a repeated packable field from any accumulated sequence
extends it by the elements of the entries, in arrival order. -/
theorem decodeFold_repeated_packable {α : Type} (nm : Naming) (rt : Runtime α)
    (field : FieldDescriptor)
    (hrep : field.is_repeated = true) (hpk : field.type.isPackable = true)
    (hpacked : ∀ xs, rt.cast (nm.kTypeToName field.type) (.length_encoded xs)
        = .list (xs.map .val))
    (hvarint : ∀ a, rt.cast (nm.kTypeToName field.type) (.varint a) = .val a)
    (hfixed : ∀ a, rt.cast (nm.kTypeToName field.type) (.fixed a) = .val a)
    (entries : List (Payload α)) (acc : List α) :
    decodeFold rt (decodeClauses nm field) (entries.map (fun p => (field.number, p)))
        (.list (acc.map .val))
      = some (.list ((acc ++ allElems entries).map .val)) := by
  induction entries generalizing acc with
  | nil => simp [decodeFold, allElems]
  | cons p ps ih =>
    simp only [List.map_cons, decodeFold]
    rw [dispatch_repeated_packable nm rt field hrep hpk hpacked hvarint hfixed]
    simp only []
    rw [ih]
    simp [allElems, List.append_assoc]

/-- Separate varint entries carry exactly their values. -/
theorem allElems_varint {α : Type} (xs : List α) :
    allElems (xs.map Payload.varint) = xs := by
  induction xs with
  | nil => rfl
  | cons x xs ih => simp [allElems, Payload.elems, ih]

/-- C6: `field_to_decode_function` emits no text exactly for group fields; the
emitted text is the rendering of the field's clauses, of which there are none
for a group, two for a repeated packable field and one otherwise. -/
theorem C6_no_text_iff_group (nm : Naming) (field : FieldDescriptor) :
    (field_to_decode_function nm field = "" ↔ field.type = .TYPE_GROUP)
      ∧ field_to_decode_function nm field
          = joinWith ";\n" ((decodeClauses nm field).map (DecodeClause.render nm))
      ∧ (decodeClauses nm field).length
          = (if field.type = .TYPE_GROUP then 0
             else if field.is_repeated = true ∧ field.type.isPackable = true then 2
             else 1) := by
  have hlen : (decodeClauses nm field).length
          = (if field.type = .TYPE_GROUP then 0
             else if field.is_repeated = true ∧ field.type.isPackable = true then 2
             else 1) := by
    unfold decodeClauses
    cases h : field.type <;> cases hr : field.is_repeated <;> simp [FieldType.isPackable]
  refine ⟨?_, field_to_decode_function_eq_render nm field, hlen⟩
  constructor
  · intro h
    by_contra hg
    rw [field_to_decode_function_eq_render] at h
    simp only [hg, if_false] at hlen
    match hc : decodeClauses nm field, hlen with
    | [c], _ =>
      rw [hc] at h
      simp [joinWith, DecodeClause.render, String.ext_iff] at h
    | [c1, c2], _ =>
      rw [hc] at h
      simp [joinWith, DecodeClause.render, String.ext_iff] at h
    | [], h0 => split at h0 <;> simp at h0
    | _ :: _ :: _ :: _, h0 => split at h0 <;> simp at h0
  · intro h
    simp [field_to_decode_function, h]

/-- The text appended by the encode `switch` is the rendering of
`encodeFragmentOf`. -/
theorem encode_fragment_eq_render (nm : Naming) (field : FieldDescriptor) :
    encode_fragment nm field = (encodeFragmentOf nm field).render nm := by
  unfold encode_fragment encodeFragmentOf
  cases h : field.type <;> cases hr : field.is_repeated <;>
    simp only [EncodeFragment.render, EncodeFragment.argText, if_true, if_false,
      Bool.false_eq_true] <;>
    (apply String.ext
     simp only [String.data_append, List.append_assoc, List.cons_append, List.nil_append,
       List.append_nil])

/-- C3 fails at a repeated packed `int32` field: the fragment is one call on the
whole field value, not a comprehension, and makes one encode call for a
three-element sequence. -/
theorem C3_counterexample :
    sampleRepeatedInt32.is_repeated = true ∧ sampleRepeatedInt32.type.isPackable = true
      ∧ sampleRepeatedInt32.packed = true
      ∧ encode_fragment sampleNaming sampleRepeatedInt32
          = "    protocol_buffers:encode(1,int32,R#m.xs)"
      ∧ (encodeFragmentOf sampleNaming sampleRepeatedInt32).shape ≠ .perElement
      ∧ ((encodeFragmentOf sampleNaming sampleRepeatedInt32).calls (fun _ v => v)
            (Term.list [Term.val (1 : Int), .val 2, .val 3])).map List.length = some 1 := by
  refine ⟨rfl, rfl, rfl, by rfl, by decide, by rfl⟩

/-- C3 as amended: for a repeated field of a packable type, whatever its packed
option, the encode fragment is the single call
`protocol_buffers:encode(id,type,R#rec.field)` with the field's declared type,
which hands the whole sequence to one encode call. -/
theorem C3_repeated_packable_encoded_whole (nm : Naming) (field : FieldDescriptor)
    (_hrep : field.is_repeated = true) (hpk : field.type.isPackable = true) :
    let r := nm.to_atom (nm.normalized_scope field.containing_type)
    let f := nm.to_atom field.name
    let type := nm.kTypeToName field.type
    encodeFragmentOf nm field = ⟨field.number, r, f, type, none, .wholeValue, ""⟩
      ∧ encode_fragment nm field
          = "    protocol_buffers:encode(" ++ nm.int_to_string field.number ++ "," ++ type
              ++ ",R#" ++ r ++ "." ++ f ++ ")"
      ∧ (∀ (α : Type) (apply : String → Term α → Term α) (xs : List (Term α)),
          (encodeFragmentOf nm field).calls apply (.list xs)
            = some [(field.number, type, .list xs)])
      ∧ ∀ b : Bool, encode_fragment nm { field with packed := b }
          = encode_fragment nm field := by
  intro r f type
  have h1 : encodeFragmentOf nm field = ⟨field.number, r, f, type, none, .wholeValue, ""⟩ := by
    unfold encodeFragmentOf
    cases h : field.type <;> simp [h, FieldType.isPackable] at hpk <;> simp [r, f, type, h]
  refine ⟨h1, ?_, ?_, fun b => rfl⟩
  · unfold encode_fragment
    cases h : field.type <;> simp [h, FieldType.isPackable] at hpk <;> simp [r, f, type, h]
  · intro α apply xs
    rw [h1]; rfl

/-- C3 as amended, at a repeated packed `int32` field. -/
theorem C3_repeated_packable_encoded_whole_witness :
    sampleRepeatedInt32.is_repeated = true ∧ sampleRepeatedInt32.type.isPackable = true
      ∧ encodeFragmentOf sampleNaming sampleRepeatedInt32
          = ⟨1, "m", "xs", "int32", none, .wholeValue, ""⟩ :=
  ⟨rfl, rfl, (C3_repeated_packable_encoded_whole sampleNaming sampleRepeatedInt32 rfl rfl).1⟩

/-- C4 at a message whose first field is a group: the encode body contains a
fragment for the group field and differs from the body emitted for the message
without its group fields. -/
theorem C4_group_field_gets_encode_fragment :
    encode_fragment sampleNaming sampleGroupField = "    protocol_buffers:encode(2,group,R#m.g)"
      ∧ encode_field_loop sampleNaming sampleGroupMessage.fields
          = "    protocol_buffers:encode(2,group,R#m.g),\n    protocol_buffers:encode(3,int32,R#m.x)"
      ∧ encode_field_loop sampleNaming sampleGroupMessage.withoutGroupFields.fields
          = "    protocol_buffers:encode(3,int32,R#m.x)"
      ∧ encode_function sampleNaming sampleGroupMessage
          ≠ encode_function sampleNaming sampleGroupMessage.withoutGroupFields := by
  refine ⟨by rfl, by rfl, by rfl, by decide⟩

/-- C5 at a message whose first field is a group: the dispatch function starts
with `fun;`, an empty alternative, and differs from the dispatch emitted for the
message without its group fields. -/
theorem C5_group_field_leaves_empty_alternative :
    decode_dispatch sampleNaming sampleGroupMessage
        = "fun;\n        (3,Val,Rec) -> Rec#m\x7bx = protocol_buffers:cast(int32,Val)\x7d\n      end).\n\n"
      ∧ decode_dispatch sampleNaming sampleGroupMessage.withoutGroupFields
        = "fun(3,Val,Rec) -> Rec#m\x7bx = protocol_buffers:cast(int32,Val)\x7d\n      end).\n\n"
      ∧ decode_dispatch sampleNaming sampleGroupMessage
          ≠ decode_dispatch sampleNaming sampleGroupMessage.withoutGroupFields := by
  refine ⟨by rfl, by rfl, by decide⟩

/-- C7 fails at a message field referencing `sub`: the clause calls
`decode_sub_impl`, not the exported `decode_sub`. -/
theorem C7_counterexample :
    sampleMessageField.type = .TYPE_MESSAGE
      ∧ export_for_message sampleNaming sampleSubMessage = "  encode_sub/1,decode_sub/1"
      ∧ field_to_decode_function sampleNaming sampleMessageField
          = "(4,\x7blength_encoded,Bin\x7d,Rec) -> Rec#m\x7bs = decode_sub_impl(Bin)\x7d"
      ∧ (decodeClauses sampleNaming sampleMessageField).map (fun c => c.expr)
          ≠ [.call (sampleNaming.decode_name sampleMessageField.message_type)] := by
  refine ⟨rfl, by rfl, by rfl, by decide⟩

/-- Induction over the declaration tree of a message. -/
theorem Descriptor.induction_on {P : Descriptor → Prop}
    (step : ∀ n fs nested enums, (∀ d ∈ nested, P d) → P (.mk n fs nested enums)) :
    ∀ d, P d := by
  intro d
  exact Descriptor.rec (motive_1 := P) (motive_2 := fun ds => ∀ d ∈ ds, P d)
    (fun n fs nested enums ih => step n fs nested enums ih)
    (by simp)
    (fun head tail h1 h2 => by
      intro d hd
      rcases List.mem_cons.1 hd with rfl | h
      · exact h1
      · exact h2 d h) d

/-- Concatenation of texts, each followed by the separator. -/
theorem concatAll_append (xs ys : List String) :
    concatAll (xs ++ ys) = concatAll xs ++ concatAll ys := by
  induction xs with
  | nil => simp [concatAll]
  | cons x xs ih => simp [concatAll, ih, String.append_assoc]

/-- A joined non-empty sequence followed by the separator is the sequence with
the separator after every item. -/
theorem joinWith_append_sep (sep : String) (xs : List String) (h : xs ≠ []) :
    joinWith sep xs ++ sep = concatAll (xs.map (fun x => x ++ sep)) := by
  induction xs with
  | nil => exact absurd rfl h
  | cons x xs ih =>
    cases xs with
    | nil => simp [joinWith, concatAll]
    | cons y ys =>
      have := ih (by simp)
      simp only [joinWith, List.map_cons, concatAll, String.append_assoc] at this ⊢
      rw [this]

/-- Joining a sequence that ends in `y`: every earlier item is followed by the
separator, `y` is not. -/
theorem joinWith_concat (sep : String) (xs : List String) (y : String) :
    joinWith sep (xs ++ [y]) = concatAll (xs.map (fun x => x ++ sep)) ++ y := by
  induction xs with
  | nil => simp [joinWith, concatAll]
  | cons x xs ih =>
    cases xs with
    | nil => simp [joinWith, concatAll, String.append_assoc]
    | cons z zs =>
      simp only [List.cons_append, joinWith, List.map_cons, concatAll, String.append_assoc,
        List.append_eq] at ih ⊢
      rw [ih]

theorem exportOrder_ne_nil (d : Descriptor) : exportOrder d ≠ [] := by
  cases d; simp [exportOrder]

theorem export_for_message_enums_eq (nm : Naming) (es : List EnumDescriptor) :
    export_for_message_enums nm es
      = concatAll (((es.map TypeDecl.enumType).map (exportPairText nm)).map
          (fun x => x ++ ",\n")) := by
  induction es with
  | nil => rfl
  | cons e es ih =>
    simp only [export_for_message_enums, List.map_cons, concatAll, ih]
    simp [exportPairText, symbolPair, export_for_enum, String.append_assoc]

/-- The text of `export_for_message` is the pair texts of `exportOrder`, joined
by `",\n"`. -/
theorem export_for_message_eq_join (nm : Naming) (d : Descriptor) :
    export_for_message nm d = joinWith ",\n" ((exportOrder d).map (exportPairText nm)) := by
  induction d using Descriptor.induction_on with
  | step n fs nested enums ih =>
    have hn : export_for_message_nested nm nested
        = concatAll (((exportOrderNested nested).map (exportPairText nm)).map
            (fun x => x ++ ",\n")) := by
      induction nested with
      | nil => rfl
      | cons d ds ihds =>
        simp only [export_for_message_nested, exportOrderNested, List.map_append,
          concatAll_append]
        rw [ihds (fun d hd => ih d (List.mem_cons_of_mem _ hd)), ih d (List.mem_cons_self _ _),
          joinWith_append_sep _ _ (by simp [exportOrder_ne_nil])]
    simp only [export_for_message, exportOrder, List.map_append, List.map_cons, List.map_nil,
      joinWith_concat, concatAll_append, hn, export_for_message_enums_eq]
    simp [exportPairText, symbolPair, Descriptor.full_name, String.append_assoc]

theorem encode_decode_for_enums_eq (nm : Naming) (es : List EnumDescriptor) :
    encode_decode_for_enums nm es
      = concatAll ((es.map TypeDecl.enumType).map (ownCodecText nm)) := by
  induction es with
  | nil => rfl
  | cons e es ih => simp [encode_decode_for_enums, concatAll, ih, ownCodecText]

/-- The text of `encode_decode_for_message` is the codec texts of `codecOrder`,
concatenated. -/
theorem encode_decode_for_message_eq_concat (nm : Naming) (d : Descriptor) :
    encode_decode_for_message nm d = concatAll ((codecOrder d).map (ownCodecText nm)) := by
  induction d using Descriptor.induction_on with
  | step n fs nested enums ih =>
    have hn : encode_decode_for_message_nested nm nested
        = concatAll ((codecOrderNested nested).map (ownCodecText nm)) := by
      induction nested with
      | nil => rfl
      | cons d ds ihds =>
        simp only [encode_decode_for_message_nested, codecOrderNested, List.map_append,
          concatAll_append]
        rw [ihds (fun d hd => ih d (List.mem_cons_of_mem _ hd)), ih d (List.mem_cons_self _ _)]
    simp only [encode_decode_for_message, codecOrder, List.map_append, List.map_cons,
      List.map_nil, concatAll_append, hn, encode_decode_for_enums_eq]
    simp [concatAll, ownCodecText, String.append_assoc]

/-- The nested loops visit the same types when each nested message does. -/
theorem exportOrderNested_perm_codec (ds : List Descriptor)
    (h : ∀ d ∈ ds, (exportOrder d).Perm (codecOrder d)) :
    (exportOrderNested ds).Perm (codecOrderNested ds) := by
  induction ds with
  | nil => exact List.Perm.refl _
  | cons d ds ih =>
    simp only [exportOrderNested, codecOrderNested]
    exact (h d (List.mem_cons_self _ _)).append
      (ih (fun x hx => h x (List.mem_cons_of_mem _ hx)))

/-- The export order and the codec order of a message list the same types. -/
theorem exportOrder_perm_codecOrder (d : Descriptor) :
    (exportOrder d).Perm (codecOrder d) := by
  induction d using Descriptor.induction_on with
  | step n fs nested enums ih =>
    simp only [exportOrder, codecOrder]
    exact (List.perm_append_comm.trans
      ((List.Perm.refl _).append (exportOrderNested_perm_codec nested ih))).append
      (List.Perm.refl _)

/-- The nested loops print in the same order when each nested message does. -/
theorem exportOrderNested_eq_codec (ds : List Descriptor)
    (h : ∀ d ∈ ds, unmixed d = true → exportOrder d = codecOrder d)
    (hu : unmixedNested ds = true) :
    exportOrderNested ds = codecOrderNested ds := by
  induction ds with
  | nil => rfl
  | cons d ds ih =>
    simp only [unmixedNested, Bool.and_eq_true] at hu
    simp only [exportOrderNested, codecOrderNested]
    rw [h d (List.mem_cons_self _ _) hu.1,
      ih (fun x hx => h x (List.mem_cons_of_mem _ hx)) hu.2]

/-- The two orders coincide on a subtree in which no message declares both
nested messages and nested enums. -/
theorem exportOrder_eq_codecOrder_of_unmixed (d : Descriptor) :
    unmixed d = true → exportOrder d = codecOrder d := by
  induction d using Descriptor.induction_on with
  | step n fs nested enums ih =>
    intro hu
    simp only [unmixed, Bool.and_eq_true, Bool.or_eq_true, List.isEmpty_iff] at hu
    simp only [exportOrder, codecOrder]
    rw [exportOrderNested_eq_codec nested ih hu.2]
    rcases hu.1 with h | h
    · subst h; simp [codecOrderNested]
    · subst h; simp

/-- C8 fails at a message that declares a nested message and a nested enum: the
export list names the nested message first, the codecs start with the nested
enum; the same holds for the file that declares this message. -/
theorem C8_counterexample :
    (exportOrder sampleNestingMessage).map (symbolPair sampleNaming)
        = [("encode_m_sub", "decode_m_sub"), ("to_m_e", "from_m_e"), ("encode_m", "decode_m")]
      ∧ (codecOrder sampleNestingMessage).map (symbolPair sampleNaming)
        = [("to_m_e", "from_m_e"), ("encode_m_sub", "decode_m_sub"), ("encode_m", "decode_m")]
      ∧ (exportOrder sampleNestingMessage).map (symbolPair sampleNaming)
        ≠ (codecOrder sampleNestingMessage).map (symbolPair sampleNaming)
      ∧ (fileExportOrder sampleFile).map (symbolPair sampleNaming)
        ≠ (fileCodecOrder sampleFile).map (symbolPair sampleNaming) := by
  refine ⟨by rfl, by rfl, by decide, by decide⟩

/-- The nested loop of the export visits exactly the subtrees of the nested
messages when each nested message's export does. -/
theorem exportOrderNested_perm_subtree (ds : List Descriptor)
    (h : ∀ d ∈ ds, (exportOrder d).Perm (subtreeTypes d)) :
    (exportOrderNested ds).Perm (subtreeTypesNested ds) := by
  induction ds with
  | nil => exact List.Perm.refl _
  | cons d ds ih =>
    simp only [exportOrderNested, subtreeTypesNested]
    exact (h d (List.mem_cons_self _ _)).append
      (ih (fun x hx => h x (List.mem_cons_of_mem _ hx)))

/-- The export order lists the types of the nested-inclusive subtree, each as
often as it is declared. -/
theorem exportOrder_perm_subtreeTypes (d : Descriptor) :
    (exportOrder d).Perm (subtreeTypes d) := by
  induction d using Descriptor.induction_on with
  | step n fs nested enums ih =>
    simp only [exportOrder, subtreeTypes]
    refine List.perm_append_comm.trans ?_
    simp only [List.singleton_append]
    exact List.Perm.cons _
      (List.perm_append_comm.trans
        ((List.Perm.refl _).append (exportOrderNested_perm_subtree nested ih)))

/-- The subtrees of a sequence of messages have `typeCountNested` entries when
each subtree has `typeCount` entries. -/
theorem subtreeTypesNested_length (ds : List Descriptor)
    (h : ∀ d ∈ ds, (subtreeTypes d).length = typeCount d) :
    (subtreeTypesNested ds).length = typeCountNested ds := by
  induction ds with
  | nil => rfl
  | cons d ds ih =>
    simp only [subtreeTypesNested, typeCountNested, List.length_append]
    rw [h d (List.mem_cons_self _ _), ih (fun x hx => h x (List.mem_cons_of_mem _ hx))]

/-- The subtree enumeration has `typeCount` entries. -/
theorem subtreeTypes_length (d : Descriptor) : (subtreeTypes d).length = typeCount d := by
  induction d using Descriptor.induction_on with
  | step n fs nested enums ih =>
    simp only [subtreeTypes, typeCount, List.length_cons, List.length_append, List.length_map]
    rw [subtreeTypesNested_length nested ih]
    omega

/-- Every type contributes two export items. -/
theorem exportItemsOf_length (nm : Naming) (ts : List TypeDecl) :
    (exportItemsOf nm ts).length = 2 * ts.length := by
  induction ts with
  | nil => rfl
  | cons t ts ih => simp [exportItemsOf, exportItems, ih]; omega

/-- Export items follow permutations of the types. -/
theorem exportItemsOf_perm (nm : Naming) {l₁ l₂ : List TypeDecl} (h : l₁.Perm l₂) :
    (exportItemsOf nm l₁).Perm (exportItemsOf nm l₂) := by
  induction h with
  | nil => exact List.Perm.refl _
  | cons x _ ih => exact (List.Perm.refl _).append ih
  | swap x y l =>
    simp only [exportItemsOf, ← List.append_assoc]
    exact List.perm_append_comm.append (List.Perm.refl _)
  | trans _ _ ih1 ih2 => exact ih1.trans ih2

/-- The export items are the derived identifiers, each followed by its
arity. -/
theorem exportItemsOf_eq_map (nm : Naming) (ts : List TypeDecl) :
    exportItemsOf nm ts = (symbolNamesOf nm ts).map (fun s => s ++ "/1") := by
  induction ts with
  | nil => rfl
  | cons t ts ih => simp [exportItemsOf, exportItems, symbolNamesOf, ih]

/-- Appending the arity keeps distinct identifiers distinct. -/
theorem append_arity_injective : Function.Injective (fun s : String => s ++ "/1") := by
  intro a b h
  have := congrArg String.data h
  simp only [String.data_append] at this
  exact String.ext (List.append_cancel_right this)

/-- C9: the export list of a message names each type of the nested-inclusive
subtree exactly once (its type order is a permutation of the subtree), so it
has twice as many name/arity entries as the subtree has types, and the entries
are pairwise distinct when the identifiers derived for the subtree's types
are. -/
theorem C9_export_list_covers_subtree_once (nm : Naming) (d : Descriptor) :
    export_for_message nm d = joinWith ",\n" ((exportOrder d).map (exportPairText nm))
      ∧ (exportOrder d).Perm (subtreeTypes d)
      ∧ (exportOrder d).length = typeCount d
      ∧ (exportItemsOf nm (exportOrder d)).length = 2 * typeCount d
      ∧ ((symbolNamesOf nm (subtreeTypes d)).Nodup →
          (exportItemsOf nm (exportOrder d)).Nodup) := by
  have hp := exportOrder_perm_subtreeTypes d
  have hl : (exportOrder d).length = typeCount d := by
    rw [hp.length_eq, subtreeTypes_length]
  refine ⟨export_for_message_eq_join nm d, hp, hl, ?_, ?_⟩
  · rw [exportItemsOf_length, hl]
  · intro hn
    have h1 : (exportItemsOf nm (subtreeTypes d)).Nodup := by
      rw [exportItemsOf_eq_map]
      exact hn.map append_arity_injective
    exact (exportItemsOf_perm nm hp).nodup_iff.2 h1

/-- C9 at a message with a nested message and a nested enum: six distinct
entries for three types. -/
theorem C9_export_list_covers_subtree_once_witness :
    (symbolNamesOf sampleNaming (subtreeTypes sampleNestingMessage)).Nodup
      ∧ (exportItemsOf sampleNaming (exportOrder sampleNestingMessage)).Nodup
      ∧ exportItemsOf sampleNaming (exportOrder sampleNestingMessage)
          = ["encode_m_sub/1", "decode_m_sub/1", "to_m_e/1", "from_m_e/1",
             "encode_m/1", "decode_m/1"] :=
  ⟨by decide,
    (C9_export_list_covers_subtree_once sampleNaming sampleNestingMessage).2.2.2.2
      (by decide),
    by rfl⟩

/-- A type in the subtrees of a sequence of messages is in the subtree of one
of them. -/
theorem mem_subtreeTypesNested {t : TypeDecl} {ds : List Descriptor}
    (h : t ∈ subtreeTypesNested ds) : ∃ d ∈ ds, t ∈ subtreeTypes d := by
  induction ds with
  | nil => simp [subtreeTypesNested] at h
  | cons d ds ih =>
    simp only [subtreeTypesNested, List.mem_append] at h
    rcases h with h | h
    · exact ⟨d, List.mem_cons_self _ _, h⟩
    · obtain ⟨x, hx, hm⟩ := ih h
      exact ⟨x, List.mem_cons_of_mem _ hx, hm⟩

/-- The export order of a nested message is a contiguous block of the nested
loop's output. -/
theorem exportOrderNested_block {d : Descriptor} {ds : List Descriptor} (h : d ∈ ds) :
    ∃ pre post, exportOrderNested ds = pre ++ exportOrder d ++ post := by
  induction ds with
  | nil => simp at h
  | cons x xs ih =>
    rcases List.mem_cons.1 h with rfl | hx
    · exact ⟨[], exportOrderNested xs, by simp [exportOrderNested]⟩
    · obtain ⟨pre, post, hp⟩ := ih hx
      exact ⟨exportOrder x ++ pre, post, by simp [exportOrderNested, hp, List.append_assoc]⟩

/-- The export order of every message of the subtree is a contiguous block of
the export order of the enclosing message. -/
theorem exportOrder_block (m : Descriptor) :
    ∀ e : Descriptor, TypeDecl.messageType e ∈ subtreeTypes m →
      ∃ pre post, exportOrder m = pre ++ exportOrder e ++ post := by
  induction m using Descriptor.induction_on with
  | step n fs nested enums ih =>
    intro e he
    simp only [subtreeTypes, List.mem_cons, List.mem_append, List.mem_map] at he
    rcases he with he | he | he
    · injection he with he
      subst he
      exact ⟨[], [], by simp⟩
    · obtain ⟨x, _, hx⟩ := he
      cases hx
    · obtain ⟨d, hd, hm⟩ := mem_subtreeTypesNested he
      obtain ⟨pre, post, hp⟩ := ih d hd e hm
      obtain ⟨pre2, post2, hp2⟩ := exportOrderNested_block hd
      refine ⟨pre2 ++ pre,
        post ++ post2 ++ enums.map TypeDecl.enumType
          ++ [TypeDecl.messageType (.mk n fs nested enums)], ?_⟩
      simp only [exportOrder] at hp ⊢
      rw [hp2, hp]
      simp only [List.append_assoc]

/-- The export order of a message ends with the message itself, and everything
strictly inside its subtree comes before. -/
theorem exportOrder_own_last (e : Descriptor) :
    ∃ front, exportOrder e = front ++ [TypeDecl.messageType e]
      ∧ ∀ t, t ∈ (subtreeTypes e).tail → t ∈ front := by
  cases e with
  | mk n fs nested enums =>
    refine ⟨exportOrderNested nested ++ enums.map TypeDecl.enumType, by simp [exportOrder], ?_⟩
    intro t ht
    simp only [subtreeTypes, List.tail_cons, List.mem_append] at ht
    have hp := exportOrderNested_perm_subtree nested
      (fun d _ => exportOrder_perm_subtreeTypes d)
    rcases ht with ht | ht
    · exact List.mem_append_right _ ht
    · exact List.mem_append_left _ (hp.mem_iff.2 ht)

/-- The export items of a concatenation. -/
theorem exportItemsOf_append (nm : Naming) (xs ys : List TypeDecl) :
    exportItemsOf nm (xs ++ ys) = exportItemsOf nm xs ++ exportItemsOf nm ys := by
  induction xs with
  | nil => rfl
  | cons x xs ih => simp [exportItemsOf, ih, List.append_assoc]

/-- C10: in the export list of a message `m`, the pair of every type nested at
any depth inside a message `e` of `m`'s subtree comes strictly before the
encode/decode pair of `e`; and `m`'s own encode/decode pair makes the last two
entries of the list. -/
theorem C10_nested_pairs_precede_enclosing (nm : Naming) (m : Descriptor) :
    export_for_message nm m = joinWith ",\n" ((exportOrder m).map (exportPairText nm))
      ∧ (∃ front, exportOrder m = front ++ [TypeDecl.messageType m]
          ∧ exportItemsOf nm (exportOrder m)
              = exportItemsOf nm front
                ++ [nm.encode_name m.full_name ++ "/1", nm.decode_name m.full_name ++ "/1"])
      ∧ ∀ (e : Descriptor) (t : TypeDecl),
          TypeDecl.messageType e ∈ subtreeTypes m → t ∈ (subtreeTypes e).tail →
          ∃ a b c, exportOrder m = a ++ t :: b ++ TypeDecl.messageType e :: c := by
  refine ⟨export_for_message_eq_join nm m, ?_, ?_⟩
  · obtain ⟨front, hf, _⟩ := exportOrder_own_last m
    refine ⟨front, hf, ?_⟩
    rw [hf, exportItemsOf_append]
    simp [exportItemsOf, exportItems, symbolPair]
  · intro e t he ht
    obtain ⟨pre, post, hb⟩ := exportOrder_block m e he
    obtain ⟨front, hf, hin⟩ := exportOrder_own_last e
    obtain ⟨a, b, hab⟩ := List.append_of_mem (hin t ht)
    refine ⟨pre ++ a, b, post, ?_⟩
    rw [hb, hf, hab]
    simp [List.append_assoc]

/-- C10 at a message `u` whose nested message `u_a` declares the enum `u_a_e`:
the enum comes before `u_a`. -/
theorem C10_nested_pairs_precede_enclosing_witness :
    TypeDecl.messageType sampleInnerMessage ∈ subtreeTypes sampleUnmixedMessage
      ∧ TypeDecl.enumType sampleInnerEnum ∈ (subtreeTypes sampleInnerMessage).tail
      ∧ ∃ a b c, exportOrder sampleUnmixedMessage
          = a ++ TypeDecl.enumType sampleInnerEnum :: b
              ++ TypeDecl.messageType sampleInnerMessage :: c :=
  ⟨by simp [subtreeTypes, subtreeTypesNested, sampleUnmixedMessage, sampleInnerMessage],
    by simp [subtreeTypes, subtreeTypesNested, sampleInnerMessage],
    (C10_nested_pairs_precede_enclosing sampleNaming sampleUnmixedMessage).2.2
      sampleInnerMessage (TypeDecl.enumType sampleInnerEnum)
      (by simp [subtreeTypes, subtreeTypesNested, sampleUnmixedMessage, sampleInnerMessage])
      (by simp [subtreeTypes, subtreeTypesNested, sampleInnerMessage])⟩

/-- The codec definitions written by `generate_source` are the codec texts of
`fileCodecOrder`, concatenated. -/
theorem generate_source_codecs_eq_concat (nm : Naming) (file : FileDescriptor) :
    encode_decode_for_enums nm file.enum_types
        ++ encode_decode_for_message_nested nm file.message_types
      = concatAll ((fileCodecOrder file).map (ownCodecText nm)) := by
  have hn : ∀ ds : List Descriptor, encode_decode_for_message_nested nm ds
      = concatAll ((codecOrderNested ds).map (ownCodecText nm)) := by
    intro ds
    induction ds with
    | nil => rfl
    | cons d ds ih =>
      simp only [encode_decode_for_message_nested, codecOrderNested, List.map_append,
        concatAll_append, ih, encode_decode_for_message_eq_concat]
  simp only [fileCodecOrder, List.map_append, concatAll_append, hn,
    encode_decode_for_enums_eq]

/-- Joining two non-empty sequences. -/
theorem joinWith_append (sep : String) (xs ys : List String) (hx : xs ≠ []) (hy : ys ≠ []) :
    joinWith sep (xs ++ ys) = joinWith sep xs ++ sep ++ joinWith sep ys := by
  cases ys with
  | nil => exact absurd rfl hy
  | cons y ys =>
    induction xs with
    | nil => exact absurd rfl hx
    | cons x xs ih =>
      cases xs with
      | nil => simp [joinWith]
      | cons z zs =>
        have := ih (by simp)
        simp only [List.cons_append, joinWith, String.append_assoc, List.append_eq] at this ⊢
        rw [this]

/-- The message loop of the export attribute prints the pair texts of the
export orders of the top-level messages, joined by `",\n"`. -/
theorem export_message_loop_eq_join (nm : Naming) (ds : List Descriptor) :
    export_message_loop nm ds
      = joinWith ",\n" ((exportOrderNested ds).map (exportPairText nm)) := by
  induction ds with
  | nil => rfl
  | cons d ds ih =>
    cases ds with
    | nil => simp [export_message_loop, exportOrderNested, export_for_message_eq_join]
    | cons e es =>
      have hne : (exportOrderNested (e :: es)).map (exportPairText nm) ≠ [] := by
        simp [exportOrderNested, exportOrder_ne_nil]
      rw [exportOrderNested, List.map_append,
        joinWith_append _ _ _ (by simp [exportOrder_ne_nil]) hne, ← ih,
        ← export_for_message_eq_join]
      simp [export_message_loop]

/-- For a file with at least one top-level message, the export attribute is the
pair texts of `fileExportOrder`, joined by `",\n"`, between `-export([` and
`]).`. -/
theorem export_attribute_eq_join (nm : Naming) (file : FileDescriptor)
    (h : file.message_types ≠ []) :
    export_attribute nm file
      = "-export([\n" ++ joinWith ",\n" ((fileExportOrder file).map (exportPairText nm))
          ++ "]).\n\n" := by
  have hne : (exportOrderNested file.message_types).map (exportPairText nm) ≠ [] := by
    cases hm : file.message_types with
    | nil => exact absurd hm h
    | cons d ds => simp [exportOrderNested, exportOrder_ne_nil]
  obtain ⟨front, y, hy⟩ : ∃ front y,
      (exportOrderNested file.message_types).map (exportPairText nm) = y :: front := by
    cases hl : (exportOrderNested file.message_types).map (exportPairText nm) with
    | nil => exact absurd hl hne
    | cons y front => exact ⟨front, y, rfl⟩
  have key : ∀ xs : List String,
      joinWith ",\n" (xs ++ y :: front)
        = concatAll (xs.map (fun x => x ++ ",\n")) ++ joinWith ",\n" (y :: front) := by
    intro xs
    induction xs with
    | nil => simp [concatAll]
    | cons x xs ih =>
      cases xs with
      | nil => simp [joinWith, concatAll, String.append_assoc]
      | cons z zs =>
        simp only [List.cons_append, joinWith, List.map_cons, concatAll, String.append_assoc,
          List.append_eq] at ih ⊢
        rw [ih]
  simp only [export_attribute, fileExportOrder, List.map_append, hy, key,
    export_for_message_enums_eq, export_message_loop_eq_join, String.append_assoc]

/-- The `to_enum` loop prints the declared `to_enum` clauses. -/
theorem to_enum_clauses_eq (nm : Naming) (d : EnumDescriptor) (vs : List EnumValueDescriptor) :
    to_enum_clauses nm d vs
      = concatAll ((vs.map (fun v => (⟨nm.to_enum_name d.full_name, .int v.number,
          .atom (nm.to_atom v.name), ";\n"⟩ : EnumClause))).map (EnumClause.render nm)) := by
  induction vs with
  | nil => rfl
  | cons v vs ih =>
    simp only [to_enum_clauses, List.map_cons, concatAll, ih]
    simp [EnumClause.render, EnumTerm.text, String.append_assoc]

/-- The `from_enum` loop prints the declared `from_enum` clauses. -/
theorem from_enum_clauses_eq (nm : Naming) (d : EnumDescriptor)
    (vs : List EnumValueDescriptor) :
    from_enum_clauses nm d vs
      = concatAll ((vs.map (fun v => (⟨nm.from_enum_name d.full_name,
          .atom (nm.to_atom v.name), .int v.number, ";\n"⟩ : EnumClause))).map
            (EnumClause.render nm)) := by
  induction vs with
  | nil => rfl
  | cons v vs ih =>
    simp only [from_enum_clauses, List.map_cons, concatAll, ih]
    simp [EnumClause.render, EnumTerm.text, String.append_assoc]

/-- The text of `encode_decode_for_enum` is the rendering of the `to_enum`
clauses followed by the rendering of the `from_enum` clauses. -/
theorem encode_decode_for_enum_eq_render (nm : Naming) (d : EnumDescriptor) :
    encode_decode_for_enum nm d
      = concatAll ((toEnumClauses nm d).map (EnumClause.render nm))
        ++ concatAll ((fromEnumClauses nm d).map (EnumClause.render nm)) := by
  simp only [encode_decode_for_enum, toEnumClauses, fromEnumClauses, List.map_append,
    concatAll_append, to_enum_clauses_eq, from_enum_clauses_eq, List.map_cons, List.map_nil,
    concatAll]
  simp [EnumClause.render, EnumTerm.text, String.append_assoc]

/-- C11: for an enum with `n` declared values, `encode_decode_for_enum` emits
`n+1` `to_enum` clauses followed by `n+1` `from_enum` clauses; in each group the
clauses of the declared pairs come in declaration order (integer to atom, atom
to integer), each terminated by `;`, and the last clause is
`undefined -> undefined`, terminated by `.`. -/
theorem C11_enum_clauses_in_declaration_order (nm : Naming) (d : EnumDescriptor) :
    encode_decode_for_enum nm d
        = concatAll ((toEnumClauses nm d).map (EnumClause.render nm))
          ++ concatAll ((fromEnumClauses nm d).map (EnumClause.render nm))
      ∧ (toEnumClauses nm d).length = d.values.length + 1
      ∧ (fromEnumClauses nm d).length = d.values.length + 1
      ∧ (∀ (i : Nat) (h : i < d.values.length),
          (toEnumClauses nm d)[i]? = some ⟨nm.to_enum_name d.full_name,
              .int (d.values.get ⟨i, h⟩).number,
              .atom (nm.to_atom (d.values.get ⟨i, h⟩).name), ";\n"⟩
          ∧ (fromEnumClauses nm d)[i]? = some ⟨nm.from_enum_name d.full_name,
              .atom (nm.to_atom (d.values.get ⟨i, h⟩).name),
              .int (d.values.get ⟨i, h⟩).number, ";\n"⟩)
      ∧ (toEnumClauses nm d)[d.values.length]?
          = some ⟨nm.to_enum_name d.full_name, .atom "undefined", .atom "undefined", ".\n\n"⟩
      ∧ (fromEnumClauses nm d)[d.values.length]?
          = some ⟨nm.from_enum_name d.full_name, .atom "undefined", .atom "undefined",
              ".\n\n"⟩ := by
  refine ⟨encode_decode_for_enum_eq_render nm d, by simp [toEnumClauses],
    by simp [fromEnumClauses], ?_, ?_, ?_⟩
  · intro i h
    constructor
    · simp [toEnumClauses, List.getElem?_append_left, h]
    · simp [fromEnumClauses, List.getElem?_append_left, h]
  · simp [toEnumClauses, List.getElem?_append_right]
  · simp [fromEnumClauses, List.getElem?_append_right]

/-- C11 at an enum with three declared values: the emitted text. -/
theorem C11_enum_clauses_in_declaration_order_witness :
    encode_decode_for_enum sampleNaming sampleAliasEnum
        = "to_e(0) -> A;\nto_e(5) -> B;\nto_e(5) -> C;\nto_e(undefined) -> undefined.\n\nfrom_e(A) -> 0;\nfrom_e(B) -> 5;\nfrom_e(C) -> 5;\nfrom_e(undefined) -> undefined.\n\n"
      ∧ (toEnumClauses sampleNaming sampleAliasEnum)[1]?
        = some ⟨"to_e", .int 5, .atom "B", ";\n"⟩ :=
  ⟨by rfl,
    ((C11_enum_clauses_in_declaration_order sampleNaming sampleAliasEnum).2.2.2.1 1
      (by decide)).1⟩

/-- The nested loop of the codecs visits exactly the subtrees of the nested
messages. -/
theorem codecOrderNested_perm_subtree (ds : List Descriptor) :
    (codecOrderNested ds).Perm (subtreeTypesNested ds) := by
  induction ds with
  | nil => exact List.Perm.refl _
  | cons d ds ih =>
    simp only [codecOrderNested, subtreeTypesNested]
    exact ((exportOrder_perm_codecOrder d).symm.trans (exportOrder_perm_subtreeTypes d)).append ih

/-- The codec order of a nested message is a contiguous block of the nested
loop's output. -/
theorem codecOrderNested_block {d : Descriptor} {ds : List Descriptor} (h : d ∈ ds) :
    ∃ pre post, codecOrderNested ds = pre ++ codecOrder d ++ post := by
  induction ds with
  | nil => simp at h
  | cons x xs ih =>
    rcases List.mem_cons.1 h with rfl | hx
    · exact ⟨[], codecOrderNested xs, by simp [codecOrderNested]⟩
    · obtain ⟨pre, post, hp⟩ := ih hx
      exact ⟨codecOrder x ++ pre, post, by simp [codecOrderNested, hp, List.append_assoc]⟩

/-- The codec order of every message of the subtree is a contiguous block of
the codec order of the enclosing message. -/
theorem codecOrder_block (m : Descriptor) :
    ∀ e : Descriptor, TypeDecl.messageType e ∈ subtreeTypes m →
      ∃ pre post, codecOrder m = pre ++ codecOrder e ++ post := by
  induction m using Descriptor.induction_on with
  | step n fs nested enums ih =>
    intro e he
    simp only [subtreeTypes, List.mem_cons, List.mem_append, List.mem_map] at he
    rcases he with he | he | he
    · injection he with he
      subst he
      exact ⟨[], [], by simp⟩
    · obtain ⟨x, _, hx⟩ := he
      cases hx
    · obtain ⟨d, hd, hm⟩ := mem_subtreeTypesNested he
      obtain ⟨pre, post, hp⟩ := ih d hd e hm
      obtain ⟨pre2, post2, hp2⟩ := codecOrderNested_block hd
      refine ⟨enums.map TypeDecl.enumType ++ pre2 ++ pre,
        post ++ post2 ++ [TypeDecl.messageType (.mk n fs nested enums)], ?_⟩
      simp only [codecOrder] at hp ⊢
      rw [hp2, hp]
      simp only [List.append_assoc]

/-- The codec order of a message ends with the message itself, and everything
strictly inside its subtree comes before. -/
theorem codecOrder_own_last (e : Descriptor) :
    ∃ front, codecOrder e = front ++ [TypeDecl.messageType e]
      ∧ ∀ t, t ∈ (subtreeTypes e).tail → t ∈ front := by
  cases e with
  | mk n fs nested enums =>
    refine ⟨enums.map TypeDecl.enumType ++ codecOrderNested nested, by simp [codecOrder], ?_⟩
    intro t ht
    simp only [subtreeTypes, List.tail_cons, List.mem_append] at ht
    rcases ht with ht | ht
    · exact List.mem_append_left _ ht
    · exact List.mem_append_right _ ((codecOrderNested_perm_subtree nested).mem_iff.2 ht)

/-- The loop over the nested enums prints their codecs in declaration order. -/
theorem encode_decode_for_enums_eq_map (nm : Naming) (es : List EnumDescriptor) :
    encode_decode_for_enums nm es = concatAll (es.map (encode_decode_for_enum nm)) := by
  induction es with
  | nil => rfl
  | cons e es ih => simp [encode_decode_for_enums, concatAll, ih]

/-- The loop over the nested messages prints their complete outputs in
declaration order. -/
theorem encode_decode_for_message_nested_eq_map (nm : Naming) (ds : List Descriptor) :
    encode_decode_for_message_nested nm ds
      = concatAll (ds.map (encode_decode_for_message nm)) := by
  induction ds with
  | nil => rfl
  | cons d ds ih => simp [encode_decode_for_message_nested, concatAll, ih]

/-- The encode loop prints the field fragments joined by `",\n"`. -/
theorem encode_field_loop_eq_join (nm : Naming) (fs : List FieldDescriptor) :
    encode_field_loop nm fs
      = joinWith ",\n" ((fs.map (encodeFragmentOf nm)).map (EncodeFragment.render nm)) := by
  induction fs with
  | nil => rfl
  | cons f fs ih =>
    cases fs with
    | nil => simp [encode_field_loop, joinWith, encode_fragment_eq_render]
    | cons g gs =>
      simp only [encode_field_loop, List.map_cons, joinWith, encode_fragment_eq_render] at ih ⊢
      rw [ih]

/-- The decode loop prints the field clause texts joined by `";\n        "`. -/
theorem decode_field_loop_eq_join (nm : Naming) (fs : List FieldDescriptor) :
    decode_field_loop nm fs
      = joinWith ";\n        " (fs.map (field_to_decode_function nm)) := by
  induction fs with
  | nil => rfl
  | cons f fs ih =>
    cases fs with
    | nil => simp [decode_field_loop, joinWith]
    | cons g gs =>
      simp only [decode_field_loop, List.map_cons, joinWith] at ih ⊢
      rw [ih]

/-- The encode function printed for a message is the rendering of
`encodeClausesOf`, the clauses separated by `";\n"` and closed by `"."`. -/
theorem encode_function_eq_render (nm : Naming) (d : Descriptor) :
    encode_function nm d
      = joinWith ";\n" ((encodeClausesOf nm d).map
          (EncodeClause.render nm (nm.encode_name d.full_name))) ++ ".\n\n" := by
  simp only [encode_function, encodeClausesOf, joinWith, List.map_cons, List.map_nil,
    EncodeClause.render, encode_field_loop_eq_join]
  apply String.ext
  simp only [String.data_append, List.append_assoc, List.cons_append, List.nil_append,
    List.append_nil]

/-- C15: the encode function of every message, whatever its fields, has
`undefined -> undefined` as its first clause, before the record clause; so
encoding `undefined` yields `undefined` and evaluates no field fragment. -/
theorem C15_encode_undefined_is_undefined (nm : Naming) (d : Descriptor) (α : Type)
    (apply : String → Term α → Term α) :
    encode_function nm d
        = joinWith ";\n" ((encodeClausesOf nm d).map
            (EncodeClause.render nm (nm.encode_name d.full_name))) ++ ".\n\n"
      ∧ encodeClausesOf nm d
        = [⟨.undefinedAtom, .undefinedAtom⟩,
           ⟨.recordOf (nm.to_atom (nm.normalized_scope d.full_name)),
            .fragmentList (d.fields.map (encodeFragmentOf nm))⟩]
      ∧ (∃ rest : String, encode_function nm d
          = nm.encode_name d.full_name ++ "(undefined) -> undefined;\n" ++ rest)
      ∧ evalEncodeClauses apply (encodeClausesOf nm d) .undefined = some (.undefined, []) := by
  refine ⟨encode_function_eq_render nm d, rfl, ?_, rfl⟩
  exact ⟨nm.encode_name d.full_name ++ "(R) when is_record(R,"
      ++ nm.to_atom (nm.normalized_scope d.full_name) ++ ") ->\n" ++ "  [\n"
      ++ encode_field_loop nm d.fields ++ "\n  ].\n\n",
    by simp only [encode_function, String.append_assoc]⟩

/-- Joining a sequence around one of its items: the items before it are each
followed by the separator. -/
theorem joinWith_append_cons (sep : String) (xs : List String) (y : String)
    (ys : List String) :
    joinWith sep (xs ++ y :: ys)
      = concatAll (xs.map (fun x => x ++ sep)) ++ joinWith sep (y :: ys) := by
  induction xs with
  | nil => simp [concatAll]
  | cons x xs ih =>
    cases xs with
    | nil => simp [joinWith, concatAll, String.append_assoc]
    | cons z zs =>
      simp only [List.cons_append, joinWith, List.map_cons, concatAll, String.append_assoc,
        List.append_eq] at ih ⊢
      rw [ih]

/-- Joining a non-empty sequence: the items after the first are each preceded
by the separator. -/
theorem joinWith_cons (sep : String) (x : String) (xs : List String) :
    joinWith sep (x :: xs) = x ++ concatAll (xs.map (fun y => sep ++ y)) := by
  induction xs generalizing x with
  | nil => simp [joinWith, concatAll]
  | cons y ys ih =>
    simp only [joinWith, List.map_cons, concatAll, String.append_assoc]
    rw [ih]

/-- The text of a joined sequence around two of its items `x` before `y`. -/
theorem joinWith_two_items (sep : String) (a b c : List String) (x y : String) :
    joinWith sep (a ++ x :: b ++ y :: c)
      = concatAll (a.map (fun s => s ++ sep)) ++ x ++ sep
        ++ concatAll (b.map (fun s => s ++ sep)) ++ y
        ++ concatAll (c.map (fun s => sep ++ s)) := by
  rw [joinWith_append_cons, joinWith_cons]
  simp [concatAll, concatAll_append, String.append_assoc]

/-- Every clause emitted for a field carries the field's number, record and
accessor. -/
theorem decodeClauses_own_field (nm : Naming) (f : FieldDescriptor) :
    ∀ c ∈ decodeClauses nm f, c.id = f.number ∧ c.field = nm.to_atom f.name
      ∧ c.recName = nm.to_atom (nm.normalized_scope f.containing_type) := by
  unfold decodeClauses
  cases h : f.type <;> cases hr : f.is_repeated <;> simp

/-- The clauses of a concatenation of field lists. -/
theorem messageDecodeClauses_append (nm : Naming) (xs ys : List FieldDescriptor) :
    messageDecodeClauses nm (xs ++ ys)
      = messageDecodeClauses nm xs ++ messageDecodeClauses nm ys := by
  induction xs with
  | nil => rfl
  | cons x xs ih => simp [messageDecodeClauses, ih, List.append_assoc]

/-- The encode fragment of a field carries the field's number, record and
accessor. -/
theorem encodeFragmentOf_own_field (nm : Naming) (f : FieldDescriptor) :
    (encodeFragmentOf nm f).id = f.number ∧ (encodeFragmentOf nm f).field = nm.to_atom f.name
      ∧ (encodeFragmentOf nm f).recName
          = nm.to_atom (nm.normalized_scope f.containing_type) := by
  unfold encodeFragmentOf
  cases h : f.type <;> cases hr : f.is_repeated <;> simp

/-- The clause emitted for a repeated string or bytes field. -/
theorem decodeClauses_repeated_string_bytes (nm : Naming) (field : FieldDescriptor)
    (hrep : field.is_repeated = true)
    (hty : field.type = .TYPE_STRING ∨ field.type = .TYPE_BYTES) :
    decodeClauses nm field =
      [⟨field.number, nm.to_atom (nm.normalized_scope field.containing_type),
          nm.to_atom field.name, .anyVal, true, .appendOne,
          .cast (nm.kTypeToName field.type), "", "\n"⟩] := by
  unfold decodeClauses
  rcases hty with h | h <;> simp [h, hrep]

/-- Folding entries of a repeated string or bytes field from any accumulated
sequence appends the cast of each payload, in arrival order. -/
theorem decodeFold_repeated_string_bytes {α : Type} (nm : Naming) (rt : Runtime α)
    (field : FieldDescriptor) (hrep : field.is_repeated = true)
    (hty : field.type = .TYPE_STRING ∨ field.type = .TYPE_BYTES)
    (entries : List (Payload α)) (acc : List (Term α)) :
    decodeFold rt (decodeClauses nm field) (entries.map (fun p => (field.number, p)))
        (.list acc)
      = some (.list (acc ++ entries.map (rt.cast (nm.kTypeToName field.type)))) := by
  rw [decodeClauses_repeated_string_bytes nm field hrep hty]
  induction entries generalizing acc with
  | nil => simp [decodeFold]
  | cons p ps ih =>
    simp only [List.map_cons, decodeFold, dispatch, DecodeClause.accepts,
      PayloadPattern.matchesPayload, Term.isList, DecodeClause.eval, decide_True,
      Bool.and_self, Bool.not_true, Bool.or_true, if_true]
    rw [ih]
    simp [List.append_assoc]

/-- C18 at a file with one top-level enum and no message: the export list ends
with `,` before `]).`, and is not the comma-separated list of its entries. -/
theorem C18_enum_only_file_has_trailing_comma :
    export_attribute sampleNaming sampleEnumOnlyFile
        = "-export([\n  to_top_e/1,from_top_e/1,\n]).\n\n"
      ∧ (fileExportOrder sampleEnumOnlyFile).map (exportPairText sampleNaming)
        = ["  to_top_e/1,from_top_e/1"]
      ∧ export_attribute sampleNaming sampleEnumOnlyFile
        ≠ "-export([\n"
            ++ joinWith ",\n"
                ((fileExportOrder sampleEnumOnlyFile).map (exportPairText sampleNaming))
            ++ "]).\n\n" := by
  refine ⟨by rfl, by rfl, by decide⟩

/-- C19: for every field of a packable type the encode fragment is the single
call `protocol_buffers:encode(id,type,R#rec.field)` on the whole field value
with the field's declared type, the same for a singular and a repeated field
and for every packed option. -/
theorem C19_packable_fragment_is_one_call (nm : Naming) (field : FieldDescriptor)
    (hpk : field.type.isPackable = true) :
    let r := nm.to_atom (nm.normalized_scope field.containing_type)
    let f := nm.to_atom field.name
    let type := nm.kTypeToName field.type
    encode_fragment nm field
        = "    protocol_buffers:encode(" ++ nm.int_to_string field.number ++ "," ++ type
            ++ ",R#" ++ r ++ "." ++ f ++ ")"
      ∧ encode_fragment nm field = (encodeFragmentOf nm field).render nm
      ∧ encodeFragmentOf nm field = ⟨field.number, r, f, type, none, .wholeValue, ""⟩
      ∧ (∀ (α : Type) (apply : String → Term α → Term α) (v : Term α),
          (encodeFragmentOf nm field).calls apply v = some [(field.number, type, v)])
      ∧ ∀ repeated packed : Bool,
          encode_fragment nm { field with is_repeated := repeated, packed := packed }
            = encode_fragment nm field := by
  intro r f type
  have h1 : encodeFragmentOf nm field = ⟨field.number, r, f, type, none, .wholeValue, ""⟩ := by
    unfold encodeFragmentOf
    cases h : field.type <;> simp [h, FieldType.isPackable] at hpk <;> simp [r, f, type, h]
  refine ⟨?_, encode_fragment_eq_render nm field, h1, ?_, ?_⟩
  · unfold encode_fragment
    cases h : field.type <;> simp [h, FieldType.isPackable] at hpk <;> simp [r, f, type, h]
  · intro α apply v
    rw [h1]; rfl
  · intro repeated packed
    unfold encode_fragment
    cases h : field.type <;> simp [h, FieldType.isPackable] at hpk <;> simp [h]

/-- C19 at a singular `int32` field: the emitted fragment, also when the field
is made repeated and packed. -/
theorem C19_packable_fragment_is_one_call_witness :
    sampleInt32Field.type.isPackable = true
      ∧ encode_fragment sampleNaming sampleInt32Field
        = "    protocol_buffers:encode(3,int32,R#m.x)"
      ∧ encode_fragment sampleNaming
          { sampleInt32Field with is_repeated := true, packed := true }
        = encode_fragment sampleNaming sampleInt32Field :=
  ⟨rfl, by rfl,
    (C19_packable_fragment_is_one_call sampleNaming sampleInt32Field rfl).2.2.2.2 true true⟩

/-- A clause of a message belongs to one of its fields. -/
theorem mem_messageDecodeClauses {nm : Naming} {c : DecodeClause}
    {fs : List FieldDescriptor} (h : c ∈ messageDecodeClauses nm fs) :
    ∃ f ∈ fs, c ∈ decodeClauses nm f := by
  induction fs with
  | nil => simp [messageDecodeClauses] at h
  | cons g gs ih =>
    simp only [messageDecodeClauses, List.mem_append] at h
    rcases h with h | h
    · exact ⟨g, List.mem_cons_self _ _, h⟩
    · obtain ⟨f, hf, hc⟩ := ih h
      exact ⟨f, List.mem_cons_of_mem _ hf, hc⟩

/-- A clause accepts only entries tagged with its own number. -/
theorem accepts_id {α : Type} {c : DecodeClause} {n : Int} {p : Payload α} {cur : Term α}
    (h : c.accepts n p cur = true) : c.id = n := by
  simp only [DecodeClause.accepts, Bool.and_eq_true, decide_eq_true_eq] at h
  exact h.1.1

/-- Clauses with other numbers in front are skipped. -/
theorem dispatchRecord_skip {α : Type} (rt : Runtime α) (cs rest : List DecodeClause)
    (n : Int) (p : Payload α) (r : String → Term α) (h : ∀ c ∈ cs, c.id ≠ n) :
    dispatchRecord rt (cs ++ rest) n p r = dispatchRecord rt rest n p r := by
  induction cs with
  | nil => rfl
  | cons c cs ih =>
    have hc : c.accepts n p (r c.field) = false := by
      cases hacc : c.accepts n p (r c.field) with
      | false => rfl
      | true => exact absurd (accepts_id hacc) (h c (List.mem_cons_self _ _))
    simp only [List.cons_append, dispatchRecord, hc, Bool.false_eq_true, if_false]
    exact ih (fun x hx => h x (List.mem_cons_of_mem _ hx))

/-- Clauses with other numbers behind are never reached in place of a clause
of the entry's number, nor do they answer when none accepts. -/
theorem dispatchRecord_ignore {α : Type} (rt : Runtime α) (cs rest : List DecodeClause)
    (n : Int) (p : Payload α) (r : String → Term α) (h : ∀ c ∈ rest, c.id ≠ n) :
    dispatchRecord rt (cs ++ rest) n p r = dispatchRecord rt cs n p r := by
  induction cs with
  | nil =>
    have := dispatchRecord_skip rt rest [] n p r h
    simpa [dispatchRecord] using this
  | cons c cs ih =>
    simp only [List.cons_append, dispatchRecord, List.append_eq, ih]

/-- In a message with pairwise distinct field numbers, dispatching an entry
tagged with a field's number over all clauses of the message is dispatching it
over the clauses of that field. -/
theorem dispatchRecord_own_field {α : Type} (nm : Naming) (rt : Runtime α)
    (fs : List FieldDescriptor) (hnd : (fs.map (fun f => f.number)).Nodup)
    (f : FieldDescriptor) (hf : f ∈ fs) (p : Payload α) (r : String → Term α) :
    dispatchRecord rt (messageDecodeClauses nm fs) f.number p r
      = dispatchRecord rt (decodeClauses nm f) f.number p r := by
  induction fs with
  | nil => simp at hf
  | cons g gs ih =>
    simp only [List.map_cons, List.nodup_cons, List.mem_map, not_exists, not_and] at hnd
    simp only [messageDecodeClauses]
    by_cases hg : g.number = f.number
    · have hfg : f = g := by
        rcases List.mem_cons.1 hf with h | h
        · exact h
        · exact absurd hg.symm (hnd.1 f h)
      subst hfg
      apply dispatchRecord_ignore
      intro c hc
      obtain ⟨x, hx, hcx⟩ := mem_messageDecodeClauses hc
      rw [(decodeClauses_own_field nm x c hcx).1]
      exact hnd.1 x hx
    · have hf2 : f ∈ gs := by
        rcases List.mem_cons.1 hf with h | h
        · exact absurd (by rw [h]) hg
        · exact h
      rw [dispatchRecord_skip rt _ _ _ _ _
        (fun c hc => by rw [(decodeClauses_own_field nm g c hc).1]; exact hg)]
      exact ih hnd.2 hf2

/-- The text of every clause starts, after its leading white space, with `(`
and the number of its field. -/
theorem render_starts_with_id (nm : Naming) (c : DecodeClause) :
    ∃ rest : String, c.render nm = c.lead ++ "(" ++ nm.int_to_string c.id ++ "," ++ rest := by
  refine ⟨c.pattern.text ++ ","
    ++ (if c.listGuard then
          "#" ++ c.recName ++ "\x7b" ++ c.field ++ "=F\x7d=Rec) when is_list(F)"
        else "Rec)")
    ++ " -> Rec#" ++ c.recName ++ "\x7b" ++ c.field
    ++ (if c.pattern = .varintEnum then "=" else " = ")
    ++ (match c.update with
        | .replace => c.expr.text c.pattern.var
        | .appendOne => "Rec#" ++ c.recName ++ "." ++ c.field ++ " ++ ["
            ++ c.expr.text c.pattern.var ++ "]"
        | .concat => "Rec#" ++ c.recName ++ "." ++ c.field ++ " ++ "
            ++ c.expr.text c.pattern.var)
    ++ "\x7d" ++ c.trail, ?_⟩
  cases hu : c.update <;> simp only [DecodeClause.render, String.append_assoc, hu]

/-- C20: every clause emitted for a field has the field's number as its first
argument pattern; so in a message with pairwise distinct field numbers a clause
that accepts an entry tagged `n` belongs to the field numbered `n`, and
first-match dispatch of the entry over all clauses of the message is the
dispatch over that field's own clauses, wherever the field is declared. -/
theorem C20_clauses_keyed_on_own_number {α : Type} (nm : Naming) (rt : Runtime α)
    (d : Descriptor) :
    (∀ f ∈ d.fields, ∀ c ∈ decodeClauses nm f, c.id = f.number
        ∧ ∃ rest : String,
            c.render nm = c.lead ++ "(" ++ nm.int_to_string f.number ++ "," ++ rest)
      ∧ decode_field_loop nm d.fields
        = joinWith ";\n        " (d.fields.map (fun f =>
            joinWith ";\n" ((decodeClauses nm f).map (DecodeClause.render nm))))
      ∧ (∀ (c : DecodeClause) (n : Int) (p : Payload α) (cur : Term α),
          c ∈ messageDecodeClauses nm d.fields → c.accepts n p cur = true →
          ∃ f ∈ d.fields, f.number = n ∧ c ∈ decodeClauses nm f)
      ∧ ((d.fields.map (fun f => f.number)).Nodup →
          ∀ f ∈ d.fields, ∀ (p : Payload α) (r : String → Term α),
            dispatchRecord rt (messageDecodeClauses nm d.fields) f.number p r
              = dispatchRecord rt (decodeClauses nm f) f.number p r) := by
  refine ⟨?_, ?_, ?_, ?_⟩
  · intro f _ c hc
    have hid := (decodeClauses_own_field nm f c hc).1
    refine ⟨hid, ?_⟩
    rw [← hid]
    exact render_starts_with_id nm c
  · rw [decode_field_loop_eq_join]
    congr 1
    apply List.map_congr_left
    intro f _
    exact field_to_decode_function_eq_render nm f
  · intro c n p cur hc hacc
    obtain ⟨f, hf, hcf⟩ := mem_messageDecodeClauses hc
    exact ⟨f, hf, by rw [← (decodeClauses_own_field nm f c hcf).1]; exact accepts_id hacc, hcf⟩
  · intro hnd f hf p r
    exact dispatchRecord_own_field nm rt d.fields hnd f hf p r

/-- C20 at a message whose first field, a singular string numbered 1, accepts
any payload shape: an entry tagged 2 is dispatched to the clause of the
message field numbered 2. -/
theorem C20_clauses_keyed_on_own_number_witness :
    (sampleShapesMessage.fields.map (fun f => f.number)).Nodup
      ∧ dispatchRecord sampleRuntime
          (messageDecodeClauses sampleNaming sampleShapesMessage.fields) 2
          (Payload.length_encoded [7]) (fun _ => Term.list [])
        = dispatchRecord sampleRuntime
            (decodeClauses sampleNaming ⟨"s", 2, .TYPE_MESSAGE, false, false, "m", "sub", ""⟩)
            2 (Payload.length_encoded [7]) (fun _ => Term.list []) :=
  ⟨by decide,
    (C20_clauses_keyed_on_own_number sampleNaming sampleRuntime sampleShapesMessage).2.2.2
      (by decide) ⟨"s", 2, .TYPE_MESSAGE, false, false, "m", "sub", ""⟩
      (by simp [sampleShapesMessage, Descriptor.fields])
      (Payload.length_encoded [7]) (fun _ => Term.list [])⟩

/-- C17: the text emitted for a repeated string or bytes field is the rendering
of one clause that matches any payload and appends the cast; folding `k`
entries through it from the empty sequence yields the `k` casts of the
payloads in arrival order, whatever the payloads (a zero-length payload gives
an element like any other), and the encode fragment makes one `length_encoded`
encode call per element, in element order. -/
theorem C17_repeated_string_bytes_keep_every_element {α : Type} (nm : Naming)
    (rt : Runtime α) (field : FieldDescriptor) (hrep : field.is_repeated = true)
    (hty : field.type = .TYPE_STRING ∨ field.type = .TYPE_BYTES)
    (entries : List (Payload α)) (apply : String → Term α → Term α)
    (xs : List (Term α)) :
    let r := nm.to_atom (nm.normalized_scope field.containing_type)
    let f := nm.to_atom field.name
    let type := nm.kTypeToName field.type
    field_to_decode_function nm field
        = joinWith ";\n" ((decodeClauses nm field).map (DecodeClause.render nm))
      ∧ field_to_decode_function nm field
        = "(" ++ nm.int_to_string field.number ++ ",Val,#" ++ r ++ "\x7b" ++ f
            ++ "=F\x7d=Rec) when is_list(F) -> Rec#" ++ r ++ "\x7b" ++ f ++ " = Rec#" ++ r
            ++ "." ++ f ++ " ++ [protocol_buffers:cast(" ++ type ++ ",Val)]\x7d\n"
      ∧ decodeClauses nm field
        = [⟨field.number, r, f, .anyVal, true, .appendOne, .cast type, "", "\n"⟩]
      ∧ decodeFold rt (decodeClauses nm field) (entries.map (fun p => (field.number, p)))
          (.list [])
        = some (.list (entries.map (rt.cast type)))
      ∧ (entries.map (rt.cast type)).length = entries.length
      ∧ encodeFragmentOf nm field
        = ⟨field.number, r, f, "length_encoded", none, .perElement, " "⟩
      ∧ encode_fragment nm field
        = "    [ protocol_buffers:encode(" ++ nm.int_to_string field.number
            ++ ",length_encoded,X) || X <- R#" ++ r ++ "." ++ f ++ "]"
      ∧ (encodeFragmentOf nm field).calls apply (.list xs)
        = some (xs.map (fun x => (field.number, "length_encoded", x))) := by
  intro r f type
  have hfrag : encodeFragmentOf nm field
      = ⟨field.number, r, f, "length_encoded", none, .perElement, " "⟩ := by
    unfold encodeFragmentOf
    rcases hty with h | h <;> simp [h, hrep, r, f]
  refine ⟨field_to_decode_function_eq_render nm field, ?_,
    decodeClauses_repeated_string_bytes nm field hrep hty, ?_, by simp, hfrag, ?_, ?_⟩
  · unfold field_to_decode_function
    rcases hty with h | h <;> simp [h, hrep, r, f, type]
  · simpa using decodeFold_repeated_string_bytes nm rt field hrep hty entries []
  · unfold encode_fragment
    rcases hty with h | h <;> simp [h, hrep, r, f]
  · rw [hfrag]; rfl

/-- C17 at a repeated string field: a zero-length payload between two others
gives the middle one of three elements. -/
theorem C17_repeated_string_bytes_keep_every_element_witness :
    decodeFold sampleRuntime (decodeClauses sampleNaming sampleRepeatedString)
        ([Payload.length_encoded [104, 105], .length_encoded [], .length_encoded [33]].map
          (fun p => (sampleRepeatedString.number, p))) (.list [])
      = some (.list ([Payload.length_encoded [104, 105], .length_encoded [],
          .length_encoded [33]].map (sampleRuntime.cast "string"))) :=
  (C17_repeated_string_bytes_keep_every_element sampleNaming sampleRuntime
    sampleRepeatedString rfl (Or.inl rfl)
    [.length_encoded [104, 105], .length_encoded [], .length_encoded [33]]
    (fun _ v => v) []).2.2.2.1

/-- The text of a clause names, after the field's number, the record and the
accessor of its field. -/
theorem render_names_field (nm : Naming) (c : DecodeClause) :
    ∃ head tail : String,
      c.render nm = c.lead ++ "(" ++ nm.int_to_string c.id ++ "," ++ head ++ " -> Rec#"
        ++ c.recName ++ "\x7b" ++ c.field ++ tail := by
  refine ⟨c.pattern.text ++ ","
    ++ (if c.listGuard then
          "#" ++ c.recName ++ "\x7b" ++ c.field ++ "=F\x7d=Rec) when is_list(F)"
        else "Rec)"),
    (if c.pattern = .varintEnum then "=" else " = ")
    ++ (match c.update with
        | .replace => c.expr.text c.pattern.var
        | .appendOne => "Rec#" ++ c.recName ++ "." ++ c.field ++ " ++ ["
            ++ c.expr.text c.pattern.var ++ "]"
        | .concat => "Rec#" ++ c.recName ++ "." ++ c.field ++ " ++ "
            ++ c.expr.text c.pattern.var)
    ++ "\x7d" ++ c.trail, ?_⟩
  cases hu : c.update <;> simp only [DecodeClause.render, String.append_assoc, hu]

/-- The text between `fun` and `end` is the rendering of the clauses of the
fields. -/
theorem decode_field_loop_eq_alternatives (nm : Naming) (fs : List FieldDescriptor) :
    decode_field_loop nm fs = renderAlternatives nm (fs.map (decodeClauses nm)) := by
  rw [decode_field_loop_eq_join, renderAlternatives, List.map_map]
  congr 1
  apply List.map_congr_left
  intro f _
  exact field_to_decode_function_eq_render nm f

/-- The decode functions printed for a message are the rendering of
`decodeFunctionsOf`. -/
theorem decode_functions_eq_render (nm : Naming) (d : Descriptor) :
    decode_functions_head nm d ++ decode_field_loop nm d.fields ++ "\n      end).\n\n"
      = (decodeFunctionsOf nm d).render nm := by
  simp only [decode_functions_head, decodeFunctionsOf, DecodeFunctions.render, joinWith,
    List.map_cons, List.map_nil, ImplClause.render, BinaryPattern.text,
    decode_field_loop_eq_alternatives]
  apply String.ext
  simp only [String.data_append, List.append_assoc, List.cons_append, List.nil_append,
    List.append_nil]

/-- The codec text of a type is the rendering of its structured view. -/
theorem ownCodecText_eq_rendered (nm : Naming) (t : TypeDecl) :
    ownCodecText nm t = renderedCodec nm t := by
  cases t with
  | enumType e => exact encode_decode_for_enum_eq_render nm e
  | messageType d =>
    simp only [ownCodecText, renderedCodec, message_own_codec]
    rw [decode_functions_eq_render, encode_function_eq_render]

/-- The text of `encode_decode_for_message` is the rendered codecs of
`codecOrder`, concatenated. -/
theorem encode_decode_for_message_eq_rendered (nm : Naming) (d : Descriptor) :
    encode_decode_for_message nm d = concatAll ((codecOrder d).map (renderedCodec nm)) := by
  rw [encode_decode_for_message_eq_concat]
  congr 1
  apply List.map_congr_left
  intro t _
  exact ownCodecText_eq_rendered nm t

/-- C8 as amended: the export list of a message and the codecs emitted for it
cover the same types, each as often (the type order of one is a permutation of
the other), and the two orders are equal when no message of the subtree
declares both nested messages and nested enums; likewise for the export list
that `generate_source` writes for a file and the codec definitions that follow
it. -/
theorem C8_export_order_permutes_codec_order (nm : Naming) (d : Descriptor)
    (file : FileDescriptor) :
    export_for_message nm d = joinWith ",\n" ((exportOrder d).map (exportPairText nm))
      ∧ encode_decode_for_message nm d = concatAll ((codecOrder d).map (renderedCodec nm))
      ∧ (exportOrder d).Perm (codecOrder d)
      ∧ (unmixed d = true → exportOrder d = codecOrder d)
      ∧ generate_source nm file
        = "-module(" ++ nm.module_name file.name ++ ").\n"
          ++ "-include(\"" ++ nm.module_name file.name ++ ".hrl\").\n\n"
          ++ dependency_includes nm file.dependencies
          ++ ("-export([\n"
              ++ concatAll ((file.enum_types.map TypeDecl.enumType).map
                  (fun t => exportPairText nm t ++ ",\n"))
              ++ joinWith ",\n" ((exportOrderNested file.message_types).map (exportPairText nm))
              ++ "]).\n\n")
          ++ concatAll ((fileCodecOrder file).map (renderedCodec nm))
      ∧ fileExportOrder file
        = file.enum_types.map TypeDecl.enumType ++ exportOrderNested file.message_types
      ∧ (file.message_types ≠ [] →
          export_attribute nm file
            = "-export([\n" ++ joinWith ",\n" ((fileExportOrder file).map (exportPairText nm))
                ++ "]).\n\n")
      ∧ (fileExportOrder file).Perm (fileCodecOrder file)
      ∧ (unmixedNested file.message_types = true →
          fileExportOrder file = fileCodecOrder file) := by
  refine ⟨export_for_message_eq_join nm d, encode_decode_for_message_eq_rendered nm d,
    exportOrder_perm_codecOrder d, exportOrder_eq_codecOrder_of_unmixed d, ?_, rfl,
    export_attribute_eq_join nm file, ?_, ?_⟩
  · have hcodecs : concatAll ((fileCodecOrder file).map (renderedCodec nm))
        = encode_decode_for_enums nm file.enum_types
          ++ encode_decode_for_message_nested nm file.message_types := by
      rw [generate_source_codecs_eq_concat]
      congr 1
      apply List.map_congr_left
      intro t _
      exact (ownCodecText_eq_rendered nm t).symm
    rw [hcodecs]
    simp only [generate_source, export_attribute, export_for_message_enums_eq,
      export_message_loop_eq_join, String.append_assoc, List.map_map, Function.comp_def]
  · exact (List.Perm.refl _).append
      (exportOrderNested_perm_codec _ (fun x _ => exportOrder_perm_codecOrder x))
  · intro hu
    simp only [fileExportOrder, fileCodecOrder]
    rw [exportOrderNested_eq_codec _ (fun x _ => exportOrder_eq_codecOrder_of_unmixed x) hu]

/-- C8 as amended, at a message with a nested message and no nested enum, and
at a file with a top-level enum and this message. -/
theorem C8_export_order_permutes_codec_order_witness :
    unmixed sampleUnmixedMessage = true
      ∧ exportOrder sampleUnmixedMessage = codecOrder sampleUnmixedMessage
      ∧ sampleUnmixedFile.message_types ≠ []
      ∧ export_attribute sampleNaming sampleUnmixedFile
        = "-export([\n  to_top_e/1,from_top_e/1,\n  to_u_a_e/1,from_u_a_e/1,\n  encode_u_a/1,decode_u_a/1,\n  encode_u_b/1,decode_u_b/1,\n  encode_u/1,decode_u/1]).\n\n"
      ∧ unmixedNested sampleUnmixedFile.message_types = true
      ∧ fileExportOrder sampleUnmixedFile = fileCodecOrder sampleUnmixedFile :=
  ⟨by decide,
    (C8_export_order_permutes_codec_order sampleNaming sampleUnmixedMessage
      sampleUnmixedFile).2.2.2.1 (by decide),
    by simp [sampleUnmixedFile],
    ((C8_export_order_permutes_codec_order sampleNaming sampleUnmixedMessage
      sampleUnmixedFile).2.2.2.2.2.2.1 (by simp [sampleUnmixedFile])).trans (by rfl),
    by decide,
    (C8_export_order_permutes_codec_order sampleNaming sampleUnmixedMessage
      sampleUnmixedFile).2.2.2.2.2.2.2.2 (by decide)⟩

/-- The dispatch `fun` of a message is Erlang exactly when the message has a
field and none of its fields is a group. -/
theorem funWellFormed_iff (nm : Naming) (fs : List FieldDescriptor) :
    funWellFormed (fs.map (decodeClauses nm)) = true
      ↔ fs ≠ [] ∧ ∀ f ∈ fs, f.type ≠ .TYPE_GROUP := by
  have hne : ∀ f : FieldDescriptor, (decodeClauses nm f).isEmpty = false ↔ f.type ≠ .TYPE_GROUP := by
    intro f
    unfold decodeClauses
    cases h : f.type <;> cases hr : f.is_repeated <;> simp
  simp only [funWellFormed, Bool.and_eq_true, Bool.not_eq_true', List.isEmpty_eq_false,
    List.all_eq_true, List.mem_map, forall_exists_index, and_imp, forall_apply_eq_imp_iff₂,
    ne_eq, List.map_eq_nil_iff]
  constructor
  · rintro ⟨h1, h2⟩
    exact ⟨h1, fun f hf => (hne f).1 (by simpa using h2 f hf)⟩
  · rintro ⟨h1, h2⟩
    exact ⟨h1, fun f hf => by simpa using (hne f).2 (h2 f hf)⟩

/-- For a message that has a field and no group field, the exported decode
function yields `#msg{}` on the empty binary without invoking
`protocol_buffers:decode`, and on a non-empty binary returns what
`protocol_buffers:decode` returns, with `undefined` turned into `#msg{}`. -/
theorem decode_of_well_formed (nm : Naming) (d : Descriptor) (ρ : Type)
    (runtimeDecode : List Nat → String → DecodeValue ρ)
    (hfields : d.fields ≠ []) (hgroup : ∀ f ∈ d.fields, f.type ≠ .TYPE_GROUP) :
    (decodeFunctionsOf nm d).decode runtimeDecode []
        = some (.defaultRecord (nm.to_atom (nm.normalized_scope d.full_name)), false)
      ∧ ∀ (b : List Nat), b ≠ [] →
          (decodeFunctionsOf nm d).decode runtimeDecode b
            = some (match runtimeDecode b (nm.to_atom (nm.normalized_scope d.full_name)) with
                    | .undefined =>
                      .defaultRecord (nm.to_atom (nm.normalized_scope d.full_name))
                    | v => v, true) := by
  have hwf : funWellFormed (d.fields.map (decodeClauses nm)) = true :=
    (funWellFormed_iff nm d.fields).2 ⟨hfields, hgroup⟩
  constructor
  · simp [DecodeFunctions.decode, decodeFunctionsOf, evalImplClauses, ImplClause.wellFormed,
      hwf, matchImplClauses, BinaryPattern.matchesBinary]
  · intro b hb
    cases b with
    | nil => exact absurd rfl hb
    | cons x xs =>
      simp only [DecodeFunctions.decode, decodeFunctionsOf, evalImplClauses,
        ImplClause.wellFormed, hwf, matchImplClauses, BinaryPattern.matchesBinary,
        List.all_cons, List.all_nil, Bool.and_self, if_true, List.isEmpty_cons,
        Bool.false_eq_true, if_false]
      cases h : runtimeDecode (x :: xs) (nm.to_atom (nm.normalized_scope d.full_name)) <;>
        simp [h]

/-- C14 at the message `sub`, which has no field: the emitted implementation
has the clause `<<>> -> undefined` first and the wrapper maps `undefined` to
`#sub{}`, but the general clause hands `protocol_buffers:decode` a `fun` with
no clause, `fun end`, so the decode function is not Erlang and yields nothing
on the empty binary. -/
theorem C14_fieldless_message_decode_is_not_erlang :
    sampleSubMessage.fields = []
      ∧ decode_functions_head sampleNaming sampleSubMessage
          ++ decode_field_loop sampleNaming sampleSubMessage.fields ++ "\n      end).\n\n"
        = "decode_sub(B) ->\n  case decode_sub_impl(B) of\n    undefined -> #sub\x7b\x7d;\n    Any -> Any\n  end.\n\ndecode_sub_impl(<<>>) -> undefined;\ndecode_sub_impl(Binary) ->\n  protocol_buffers:decode(Binary,#sub\x7b\x7d,\n     fun\n      end).\n\n"
      ∧ decode_functions_head sampleNaming sampleSubMessage
          ++ decode_field_loop sampleNaming sampleSubMessage.fields ++ "\n      end).\n\n"
        = (decodeFunctionsOf sampleNaming sampleSubMessage).render sampleNaming
      ∧ (decodeFunctionsOf sampleNaming sampleSubMessage).implClauses
        = [⟨.emptyBinary, .undefinedAtom⟩, ⟨.anyBinary, .runtimeDecode "sub" []⟩]
      ∧ funWellFormed [] = false
      ∧ (decodeFunctionsOf sampleNaming sampleSubMessage).decode
          (fun b _ => DecodeValue.decoded b) [] = none
      ∧ (decodeFunctionsOf sampleNaming sampleGroupMessage).decode
          (fun b _ => DecodeValue.decoded b) [] = none := by
  refine ⟨rfl, by rfl, by rfl, by rfl, by rfl, by rfl, by rfl⟩

/-- A value that no declared clause denotes falls through to the clauses after
them. -/
theorem matchEnumClauses_map_skip (mk : EnumValueDescriptor → EnumClause)
    (vs : List EnumValueDescriptor) (rest : List EnumClause) (x : EnumValue)
    (h : ∀ v ∈ vs, (mk v).arg.denote ≠ some x) :
    matchEnumClauses (vs.map mk ++ rest) x = matchEnumClauses rest x := by
  induction vs with
  | nil => rfl
  | cons u us ih =>
    simp only [List.map_cons, List.cons_append, matchEnumClauses,
      if_neg (h u (List.mem_cons_self _ _))]
    exact ih (fun v hv => h v (List.mem_cons_of_mem _ hv))

/-- A value that a declared clause denotes is answered by a declared clause
that denotes it (the first one). -/
theorem matchEnumClauses_map_first (mk : EnumValueDescriptor → EnumClause)
    (vs : List EnumValueDescriptor) (rest : List EnumClause) (x : EnumValue)
    (v : EnumValueDescriptor) (hv : v ∈ vs) (hx : (mk v).arg.denote = some x) :
    ∃ w ∈ vs, (mk w).arg.denote = some x
      ∧ matchEnumClauses (vs.map mk ++ rest) x = (mk w).result.denote := by
  induction vs with
  | nil => simp at hv
  | cons u us ih =>
    by_cases hu : (mk u).arg.denote = some x
    · exact ⟨u, List.mem_cons_self _ _, hu, by simp [matchEnumClauses, hu]⟩
    · have hv2 : v ∈ us := by
        rcases List.mem_cons.1 hv with rfl | h
        · exact absurd hx hu
        · exact h
      obtain ⟨w, hw, harg, hres⟩ := ih hv2
      exact ⟨w, List.mem_cons_of_mem _ hw, harg, by simp [matchEnumClauses, hu, hres]⟩

/-- The text `undefined` denotes the atom `undefined`. -/
theorem atomName_undefined : atomName "undefined" = some "undefined" := by decide

/-- When every declared name is printed as an atom, every clause of both
mapping functions denotes values. -/
theorem enum_clauses_wellFormed (nm : Naming) (d : EnumDescriptor)
    (hatoms : ∀ v ∈ d.values, (atomName (nm.to_atom v.name)).isSome = true) :
    (toEnumClauses nm d ++ fromEnumClauses nm d).all EnumClause.wellFormed = true := by
  simp only [List.all_eq_true, List.mem_append, toEnumClauses, fromEnumClauses, List.mem_map,
    List.mem_singleton]
  rintro c ((⟨v, hv, rfl⟩ | rfl) | (⟨v, hv, rfl⟩ | rfl))
  · simpa [EnumClause.wellFormed, EnumTerm.denote] using hatoms v hv
  · simp [EnumClause.wellFormed, EnumTerm.denote, atomName_undefined]
  · simpa [EnumClause.wellFormed, EnumTerm.denote] using hatoms v hv
  · simp [EnumClause.wellFormed, EnumTerm.denote, atomName_undefined]

/-- C12 fails at an enum that declares a value named `undefined`: the declared
names are printed as pairwise distinct atoms, yet the first `from_enum` clause
matches `undefined`, so `from_enum(undefined)` is the integer of that value,
not `undefined`; the same holds when the names are printed in quotes. -/
theorem C12_counterexample :
    (∀ v ∈ sampleUndefinedEnum.values, (atomName (sampleNaming.to_atom v.name)).isSome = true)
      ∧ (sampleUndefinedEnum.values.map
          (fun v => atomName (sampleNaming.to_atom v.name))).Nodup
      ∧ encode_decode_for_enum sampleNaming sampleUndefinedEnum
        = "to_e(0) -> undefined;\nto_e(1) -> a;\nto_e(undefined) -> undefined.\n\nfrom_e(undefined) -> 0;\nfrom_e(a) -> 1;\nfrom_e(undefined) -> undefined.\n\n"
      ∧ encode_decode_for_enum sampleNaming sampleUndefinedEnum
        = concatAll ((toEnumClauses sampleNaming sampleUndefinedEnum).map
            (EnumClause.render sampleNaming))
          ++ concatAll ((fromEnumClauses sampleNaming sampleUndefinedEnum).map
            (EnumClause.render sampleNaming))
      ∧ evalFromEnum sampleNaming sampleUndefinedEnum (.atom "undefined") = some (.int 0)
      ∧ evalFromEnum sampleNaming sampleUndefinedEnum (.atom "undefined")
        ≠ some (.atom "undefined")
      ∧ (sampleUndefinedEnum.values.map
          (fun v => atomName (quotingNaming.to_atom v.name))).Nodup
      ∧ evalFromEnum quotingNaming sampleUndefinedEnum (.atom "undefined") = some (.int 0) := by
  refine ⟨by decide, by decide, by rfl, encode_decode_for_enum_eq_render _ _, by decide,
    by decide, by decide, by decide⟩

set_option maxHeartbeats 2000000 in
/-- C2: the text emitted for a repeated packable field is the rendering of its
two clauses; with first-match semantics and `cast` returning the element list
of a length-encoded payload and the element of a single primitive, folding any
sequence of entries of the field through these clauses from the empty sequence
yields the concatenation of the entries' elements in arrival order; hence one
packed entry, separate entries and any interleaving with the same elements
give the same sequence. -/
theorem C2_packed_unpacked_interleaved_agree {α : Type} (nm : Naming) (rt : Runtime α)
    (field : FieldDescriptor)
    (hrep : field.is_repeated = true) (hpk : field.type.isPackable = true)
    (hpacked : ∀ xs, rt.cast (nm.kTypeToName field.type) (.length_encoded xs)
        = .list (xs.map .val))
    (hvarint : ∀ a, rt.cast (nm.kTypeToName field.type) (.varint a) = .val a)
    (hfixed : ∀ a, rt.cast (nm.kTypeToName field.type) (.fixed a) = .val a)
    (entries : List (Payload α)) :
    let run := fun es : List (Payload α) =>
      decodeFold rt (decodeClauses nm field) (es.map (fun p => (field.number, p))) (.list [])
    field_to_decode_function nm field
        = joinWith ";\n" ((decodeClauses nm field).map (DecodeClause.render nm))
      ∧ decodeClauses nm field
        = [⟨field.number, nm.to_atom (nm.normalized_scope field.containing_type),
              nm.to_atom field.name, .lengthEncodedVal, true, .concat,
              .cast (nm.kTypeToName field.type), "        ", ""⟩,
           ⟨field.number, nm.to_atom (nm.normalized_scope field.containing_type),
              nm.to_atom field.name, .anyVal, true, .appendOne,
              .cast (nm.kTypeToName field.type), "        ", "\n"⟩]
      ∧ run entries = some (.list ((allElems entries).map .val))
      ∧ (∀ xs : List α, run [.length_encoded xs] = some (.list (xs.map .val))
          ∧ run (xs.map .varint) = some (.list (xs.map .val)))
      ∧ (∀ entries2 : List (Payload α), allElems entries2 = allElems entries →
          run entries2 = run entries) := by
  intro run
  have key : ∀ es, run es = some (.list ((allElems es).map .val)) := fun es => by
    have := decodeFold_repeated_packable nm rt field hrep hpk hpacked hvarint hfixed es []
    simpa using this
  refine ⟨?_, decodeClauses_repeated_packable nm field hrep hpk, key entries,
    fun xs => ⟨?_, ?_⟩, fun es h => ?_⟩
  · rw [decodeClauses_repeated_packable nm field hrep hpk]
    unfold field_to_decode_function
    cases h : field.type <;> simp [h, FieldType.isPackable] at hpk <;>
      simp only [hrep, if_true, joinWith, List.map, DecodeClause.render, DecodeExpr.text,
        PayloadPattern.text, PayloadPattern.var, reduceCtorEq, if_false] <;>
      (apply String.ext; simp only [String.data_append, List.append_assoc, List.cons_append,
        List.nil_append, List.append_nil])
  · rw [key]; simp [allElems, Payload.elems]
  · rw [key, allElems_varint]
  · rw [key, key, h]

/-- C2 at a repeated `int32` field: the entries `[1,2]` packed, `3` alone and
`[4]` packed decode to `[1,2,3,4]`. -/
theorem C2_packed_unpacked_interleaved_agree_witness :
    decodeFold sampleRuntime (decodeClauses sampleNaming sampleRepeatedInt32)
        ([Payload.length_encoded [1, 2], .varint 3, .length_encoded [4]].map
          (fun p => (sampleRepeatedInt32.number, p))) (.list [])
      = some (.list ((allElems [Payload.length_encoded [1, 2], .varint 3,
          .length_encoded [4]]).map .val)) :=
  (C2_packed_unpacked_interleaved_agree sampleNaming sampleRuntime sampleRepeatedInt32 rfl rfl
    (fun _ => rfl) (fun _ => rfl) (fun _ => rfl)
    [.length_encoded [1, 2], .varint 3, .length_encoded [4]]).2.2.1

set_option maxHeartbeats 2000000 in
/-- C7 as amended: the clause of a message field referencing `d` matches a
`{length_encoded,Bin}` payload and calls `decode_impl_name` of `d`.  This is the
implementation function that `encode_decode_for_message` defines for `d` right
after the exported wrapper `decode_name` of `d`, with `<<>> -> undefined` as its
first clause; the called identifier is the exported `decode_name` of `d` only
under a naming that gives both functions the same identifier. -/
theorem C7_message_field_calls_decode_impl (nm : Naming) (field : FieldDescriptor)
    (d : Descriptor) (hty : field.type = .TYPE_MESSAGE)
    (href : field.message_type = d.full_name) :
    field_to_decode_function nm field
        = joinWith ";\n" ((decodeClauses nm field).map (DecodeClause.render nm))
      ∧ (decodeClauses nm field).map (fun c => (c.id, c.pattern, c.expr))
        = [(field.number, .lengthEncodedBin, .call (nm.decode_impl_name d.full_name))]
      ∧ (decodeClauses nm field).map (fun c => c.update)
        = [if field.is_repeated then .appendOne else .replace]
      ∧ (∀ c ∈ decodeClauses nm field,
          (c.expr = .call (nm.decode_name d.full_name)
            ↔ nm.decode_impl_name d.full_name = nm.decode_name d.full_name))
      ∧ decode_functions_head nm d ++ decode_field_loop nm d.fields ++ "\n      end).\n\n"
        = (decodeFunctionsOf nm d).render nm
      ∧ (decodeFunctionsOf nm d).function = nm.decode_name d.full_name
      ∧ (decodeFunctionsOf nm d).function_impl = nm.decode_impl_name d.full_name
      ∧ (decodeFunctionsOf nm d).implClauses.head? = some ⟨.emptyBinary, .undefinedAtom⟩
      ∧ ∃ post : String, encode_decode_for_message nm d
        = concatAll (d.enum_types.map (encode_decode_for_enum nm))
          ++ concatAll (d.nested_types.map (encode_decode_for_message nm))
          ++ (nm.decode_name d.full_name ++ "(B) ->\n  case "
              ++ nm.decode_impl_name d.full_name ++ "(B) of\n    undefined -> #"
              ++ nm.to_atom (nm.normalized_scope d.full_name)
              ++ "\x7b\x7d;\n    Any -> Any\n  end.\n\n")
          ++ (nm.decode_impl_name d.full_name ++ "(<<>>) -> undefined;\n") ++ post := by
  have hexpr : (decodeClauses nm field).map (fun c => (c.id, c.pattern, c.expr))
      = [(field.number, .lengthEncodedBin, .call (nm.decode_impl_name d.full_name))] := by
    unfold decodeClauses
    cases hr : field.is_repeated <;> simp [hty, href]
  refine ⟨?_, hexpr, ?_, ?_, decode_functions_eq_render nm d, rfl, rfl, rfl, ?_⟩
  · unfold field_to_decode_function decodeClauses
    cases hr : field.is_repeated <;>
      simp only [hty, joinWith, List.map, DecodeClause.render, DecodeExpr.text,
        PayloadPattern.text, PayloadPattern.var, reduceCtorEq, if_true, if_false,
        Bool.false_eq_true] <;>
      (apply String.ext; simp only [String.data_append, List.append_assoc, List.cons_append,
        List.nil_append, List.append_nil])
  · unfold decodeClauses
    cases hr : field.is_repeated <;> simp [hty]
  · intro c hc
    have hmem : (c.id, c.pattern, c.expr)
        ∈ (decodeClauses nm field).map (fun c => (c.id, c.pattern, c.expr)) :=
      List.mem_map_of_mem _ hc
    rw [hexpr] at hmem
    simp only [List.mem_singleton, Prod.mk.injEq] at hmem
    rw [hmem.2.2]
    constructor
    · intro h; injection h
    · intro h; rw [h]
  · cases d with
    | mk n fs nested enums =>
      refine ⟨nm.decode_impl_name n ++ "(Binary) ->\n"
          ++ "  protocol_buffers:decode(Binary,#" ++ nm.to_atom (nm.normalized_scope n)
          ++ "\x7b\x7d,\n" ++ "     fun" ++ decode_field_loop nm fs ++ "\n      end).\n\n"
          ++ encode_function nm (.mk n fs nested enums), ?_⟩
      simp only [encode_decode_for_message, message_own_codec, decode_functions_head,
        Descriptor.full_name, Descriptor.fields, Descriptor.enum_types,
        Descriptor.nested_types, encode_decode_for_enums_eq_map,
        encode_decode_for_message_nested_eq_map, String.append_assoc]
      apply String.ext
      simp only [String.data_append, List.append_assoc, List.cons_append, List.nil_append,
        List.append_nil]

/-- C7 as amended, at a message field referencing `sub`: the clause calls
`decode_sub_impl`, which is not the exported `decode_sub`. -/
theorem C7_message_field_calls_decode_impl_witness :
    sampleMessageField.type = .TYPE_MESSAGE
      ∧ sampleMessageField.message_type = sampleSubMessage.full_name
      ∧ (decodeClauses sampleNaming sampleMessageField).map (fun c => (c.id, c.pattern, c.expr))
        = [(4, .lengthEncodedBin, .call "decode_sub_impl")] :=
  ⟨rfl, rfl,
    (C7_message_field_calls_decode_impl sampleNaming sampleMessageField sampleSubMessage
      rfl rfl).2.1⟩

/-- C12 as amended: the text of `encode_decode_for_enum` is the rendering of
the `to_enum` and `from_enum` clauses, and for an enum whose declared names are
printed as pairwise distinct atoms, with first-match semantics, `to_enum` and
`from_enum` are defined on every declared value and on `undefined`,
`from_enum(to_enum(k)) = k` for every declared integer,
`to_enum(undefined) = undefined`, `from_enum(undefined) = undefined` when no
declared name is printed as the atom `undefined`, and
`to_enum(from_enum(s)) = s` for every declared name when the declared integers
are pairwise distinct too. -/
theorem C12_enum_mappings_round_trip (nm : Naming) (d : EnumDescriptor)
    (hatoms : ∀ v ∈ d.values, (atomName (nm.to_atom v.name)).isSome = true)
    (hnames : (d.values.map (fun v => atomName (nm.to_atom v.name))).Nodup) :
    encode_decode_for_enum nm d
        = concatAll ((toEnumClauses nm d).map (EnumClause.render nm))
          ++ concatAll ((fromEnumClauses nm d).map (EnumClause.render nm))
      ∧ (∀ v ∈ d.values, (evalToEnum nm d (.int v.number)).isSome = true
          ∧ ∀ a, atomName (nm.to_atom v.name) = some a →
              evalFromEnum nm d (.atom a) = some (.int v.number))
      ∧ evalToEnum nm d (.atom "undefined") = some (.atom "undefined")
      ∧ (evalFromEnum nm d (.atom "undefined")).isSome = true
      ∧ (∀ v ∈ d.values,
          (evalToEnum nm d (.int v.number)).bind (evalFromEnum nm d) = some (.int v.number))
      ∧ ((∀ v ∈ d.values, atomName (nm.to_atom v.name) ≠ some "undefined") →
          evalFromEnum nm d (.atom "undefined") = some (.atom "undefined"))
      ∧ ((d.values.map (fun v => v.number)).Nodup →
          ∀ v ∈ d.values, ∀ a, atomName (nm.to_atom v.name) = some a →
            (evalFromEnum nm d (.atom a)).bind (evalToEnum nm d) = some (.atom a)) := by
  have hwf := enum_clauses_wellFormed nm d hatoms
  have hTo : ∀ x, evalToEnum nm d x = matchEnumClauses (toEnumClauses nm d) x := by
    intro x; simp only [evalToEnum, hwf, if_true]
  have hFrom : ∀ x, evalFromEnum nm d x = matchEnumClauses (fromEnumClauses nm d) x := by
    intro x; simp only [evalFromEnum, hwf, if_true]
  have hto : ∀ v ∈ d.values, ∃ w ∈ d.values, w.number = v.number
      ∧ ∃ a, atomName (nm.to_atom w.name) = some a
        ∧ evalToEnum nm d (.int v.number) = some (.atom a) := by
    intro v hv
    obtain ⟨w, hw, harg, hres⟩ := matchEnumClauses_map_first
      (fun v => ⟨nm.to_enum_name d.full_name, .int v.number, .atom (nm.to_atom v.name), ";\n"⟩)
      d.values [⟨nm.to_enum_name d.full_name, .atom "undefined", .atom "undefined", ".\n\n"⟩]
      (.int v.number) v hv rfl
    obtain ⟨a, ha⟩ := Option.isSome_iff_exists.1 (hatoms w hw)
    refine ⟨w, hw, by simpa [EnumTerm.denote] using harg, a, ha, ?_⟩
    rw [hTo, toEnumClauses, hres]
    simp [EnumTerm.denote, ha]
  have hfrom : ∀ v ∈ d.values, ∀ a, atomName (nm.to_atom v.name) = some a →
      evalFromEnum nm d (.atom a) = some (.int v.number) := by
    intro v hv a ha
    obtain ⟨w, hw, harg, hres⟩ := matchEnumClauses_map_first
      (fun v => ⟨nm.from_enum_name d.full_name, .atom (nm.to_atom v.name), .int v.number,
        ";\n"⟩)
      d.values [⟨nm.from_enum_name d.full_name, .atom "undefined", .atom "undefined",
        ".\n\n"⟩] (.atom a) v hv (by simp [EnumTerm.denote, ha])
    have hwa : atomName (nm.to_atom w.name) = some a := by
      simp only [EnumTerm.denote, Option.map_eq_some'] at harg
      obtain ⟨b, hb, hba⟩ := harg
      injection hba with hba
      rw [hb, hba]
    have hwv : w = v := List.inj_on_of_nodup_map hnames hw hv (by rw [hwa, ha])
    subst hwv
    rw [hFrom, fromEnumClauses, hres]
    rfl
  have hround : ∀ v ∈ d.values,
      (evalToEnum nm d (.int v.number)).bind (evalFromEnum nm d) = some (.int v.number) := by
    intro v hv
    obtain ⟨w, hw, hnum, a, ha, hres⟩ := hto v hv
    rw [hres, Option.some_bind, hfrom w hw a ha, hnum]
  have hundef : (∀ v ∈ d.values, atomName (nm.to_atom v.name) ≠ some "undefined") →
      evalFromEnum nm d (.atom "undefined") = some (.atom "undefined") := by
    intro h
    rw [hFrom, fromEnumClauses, matchEnumClauses_map_skip _ _ _ _ (by
      intro v hv hden
      simp only [EnumTerm.denote, Option.map_eq_some'] at hden
      obtain ⟨b, hb, hba⟩ := hden
      injection hba with hba
      exact h v hv (by rw [hb, hba]))]
    simp [matchEnumClauses, EnumTerm.denote, atomName_undefined]
  refine ⟨?_, fun v hv => ⟨?_, hfrom v hv⟩, ?_, ?_, hround, hundef, ?_⟩
  · simp only [encode_decode_for_enum, toEnumClauses, fromEnumClauses, List.map_append,
      concatAll_append, to_enum_clauses_eq, from_enum_clauses_eq, List.map_cons, List.map_nil,
      concatAll]
    simp [EnumClause.render, EnumTerm.text, String.append_assoc]
  · obtain ⟨w, _, _, a, _, hres⟩ := hto v hv
    rw [hres]; rfl
  · rw [hTo, toEnumClauses, matchEnumClauses_map_skip _ _ _ _ (by
      intro v _; simp [EnumTerm.denote])]
    simp [matchEnumClauses, EnumTerm.denote, atomName_undefined]
  · by_cases h : ∀ v ∈ d.values, atomName (nm.to_atom v.name) ≠ some "undefined"
    · rw [hundef h]; rfl
    · simp only [not_forall, Classical.not_imp, not_not] at h
      obtain ⟨v, hv, hname⟩ := h
      rw [hfrom v hv "undefined" hname]; rfl
  · intro hnums v hv a ha
    rw [hfrom v hv a ha, Option.some_bind]
    obtain ⟨w, hw, hnum, b, hb, hres⟩ := hto v hv
    have hwv : w = v := List.inj_on_of_nodup_map hnums hw hv hnum
    subst hwv
    have hab : b = a := Option.some.inj (hb.symm.trans ha)
    rw [hres, hab]

/-- C12 as amended, at an enum that declares the integer 5 twice:
`from_enum(to_enum(5)) = 5`. -/
theorem C12_enum_mappings_round_trip_witness :
    (∀ v ∈ sampleLowerAliasEnum.values,
        (atomName (sampleNaming.to_atom v.name)).isSome = true)
      ∧ (sampleLowerAliasEnum.values.map
          (fun v => atomName (sampleNaming.to_atom v.name))).Nodup
      ∧ (evalToEnum sampleNaming sampleLowerAliasEnum (.int 5)).bind
          (evalFromEnum sampleNaming sampleLowerAliasEnum)
        = some (.int 5) :=
  ⟨by decide, by decide,
    (C12_enum_mappings_round_trip sampleNaming sampleLowerAliasEnum (by decide)
      (by decide)).2.2.2.2.1 ⟨"c", 5⟩ (by decide)⟩

/-- C13: the text of `encode_decode_for_message` is the codecs of the nested
enums in declaration order, then the complete output for each nested message
in declaration order, then the message's own decode functions, then its own
encode function; so the codec of every type nested at any depth inside a
message of the subtree precedes the codec of that message. -/
theorem C13_nested_codecs_then_own (nm : Naming) (m : Descriptor) :
    encode_decode_for_message nm m
        = concatAll (m.enum_types.map (fun e =>
            concatAll ((toEnumClauses nm e).map (EnumClause.render nm))
              ++ concatAll ((fromEnumClauses nm e).map (EnumClause.render nm))))
          ++ concatAll (m.nested_types.map (encode_decode_for_message nm))
          ++ (decodeFunctionsOf nm m).render nm
          ++ (joinWith ";\n" ((encodeClausesOf nm m).map
                (EncodeClause.render nm (nm.encode_name m.full_name))) ++ ".\n\n")
      ∧ encode_decode_for_message nm m = concatAll ((codecOrder m).map (renderedCodec nm))
      ∧ ∀ (e : Descriptor) (t : TypeDecl),
          TypeDecl.messageType e ∈ subtreeTypes m → t ∈ (subtreeTypes e).tail →
          ∃ a b c, codecOrder m = a ++ t :: b ++ TypeDecl.messageType e :: c := by
  refine ⟨?_, encode_decode_for_message_eq_rendered nm m, ?_⟩
  · have henums : ∀ es : List EnumDescriptor,
        es.map (encode_decode_for_enum nm)
          = es.map (fun e => concatAll ((toEnumClauses nm e).map (EnumClause.render nm))
              ++ concatAll ((fromEnumClauses nm e).map (EnumClause.render nm))) := by
      intro es
      apply List.map_congr_left
      intro e _
      exact encode_decode_for_enum_eq_render nm e
    rw [← decode_functions_eq_render, ← henums]
    cases m with
    | mk n fs nested enums =>
      simp only [encode_decode_for_message, message_own_codec, encode_function,
        encodeClausesOf, joinWith, List.map_cons, List.map_nil, EncodeClause.render,
        encode_field_loop_eq_join, Descriptor.enum_types, Descriptor.nested_types,
        Descriptor.fields, Descriptor.full_name, encode_decode_for_enums_eq_map,
        encode_decode_for_message_nested_eq_map]
      apply String.ext
      simp only [String.data_append, List.append_assoc, List.cons_append, List.nil_append,
        List.append_nil]
  · intro e t he ht
    obtain ⟨pre, post, hb⟩ := codecOrder_block m e he
    obtain ⟨front, hf, hin⟩ := codecOrder_own_last e
    obtain ⟨a, b, hab⟩ := List.append_of_mem (hin t ht)
    refine ⟨pre ++ a, b, post, ?_⟩
    rw [hb, hf, hab]
    simp [List.append_assoc]

/-- C13 at a message `u` whose nested message `u_a` declares the enum `u_a_e`:
the codec of the enum comes before the codec of `u_a`. -/
theorem C13_nested_codecs_then_own_witness :
    TypeDecl.messageType sampleInnerMessage ∈ subtreeTypes sampleUnmixedMessage
      ∧ TypeDecl.enumType sampleInnerEnum ∈ (subtreeTypes sampleInnerMessage).tail
      ∧ ∃ a b c, codecOrder sampleUnmixedMessage
          = a ++ TypeDecl.enumType sampleInnerEnum :: b
              ++ TypeDecl.messageType sampleInnerMessage :: c :=
  ⟨by simp [subtreeTypes, subtreeTypesNested, sampleUnmixedMessage, sampleInnerMessage],
    by simp [subtreeTypes, subtreeTypesNested, sampleInnerMessage],
    (C13_nested_codecs_then_own sampleNaming sampleUnmixedMessage).2.2
      sampleInnerMessage (TypeDecl.enumType sampleInnerEnum)
      (by simp [subtreeTypes, subtreeTypesNested, sampleUnmixedMessage, sampleInnerMessage])
      (by simp [subtreeTypes, subtreeTypesNested, sampleInnerMessage])⟩

set_option maxHeartbeats 4000000 in
/-- C16: in every message the decode clauses and the encode fragments follow
the declaration order of the fields: the text printed for each field is the
rendering of its clauses, each of which starts with the field's number and
names its accessor; for fields `fi` before `fj` the text of `fi` precedes the
text of `fj` in the dispatch function and in the encode list; every fragment
carries the number and accessor of its own field; and the encode fragments are
joined by `",\n"`, with none after the last. -/
theorem C16_fields_in_declaration_order (nm : Naming) (d : Descriptor) :
    decode_field_loop nm d.fields
        = joinWith ";\n        " (d.fields.map (field_to_decode_function nm))
      ∧ encode_field_loop nm d.fields = joinWith ",\n" (d.fields.map (encode_fragment nm))
      ∧ (∀ f ∈ d.fields,
          field_to_decode_function nm f
              = joinWith ";\n" ((decodeClauses nm f).map (DecodeClause.render nm))
          ∧ (decodeClauses nm f = [] ↔ f.type = .TYPE_GROUP)
          ∧ (∀ c ∈ decodeClauses nm f, c.id = f.number ∧ c.field = nm.to_atom f.name
              ∧ ∃ head tail : String,
                  c.render nm = c.lead ++ "(" ++ nm.int_to_string f.number ++ "," ++ head
                    ++ " -> Rec#" ++ c.recName ++ "\x7b" ++ nm.to_atom f.name ++ tail)
          ∧ encode_fragment nm f = (encodeFragmentOf nm f).render nm
          ∧ (encodeFragmentOf nm f).id = f.number
          ∧ (encodeFragmentOf nm f).field = nm.to_atom f.name)
      ∧ ∀ (a : List FieldDescriptor) (fi : FieldDescriptor) (b : List FieldDescriptor)
          (fj : FieldDescriptor) (c : List FieldDescriptor),
          d.fields = a ++ fi :: b ++ fj :: c →
          decode_field_loop nm d.fields
              = concatAll (a.map (fun f => field_to_decode_function nm f ++ ";\n        "))
                ++ field_to_decode_function nm fi ++ ";\n        "
                ++ concatAll (b.map (fun f => field_to_decode_function nm f ++ ";\n        "))
                ++ field_to_decode_function nm fj
                ++ concatAll (c.map (fun f => ";\n        " ++ field_to_decode_function nm f))
            ∧ messageDecodeClauses nm d.fields
              = messageDecodeClauses nm a ++ decodeClauses nm fi ++ messageDecodeClauses nm b
                ++ decodeClauses nm fj ++ messageDecodeClauses nm c
            ∧ encode_field_loop nm d.fields
              = concatAll (a.map (fun f => encode_fragment nm f ++ ",\n"))
                ++ encode_fragment nm fi ++ ",\n"
                ++ concatAll (b.map (fun f => encode_fragment nm f ++ ",\n"))
                ++ encode_fragment nm fj
                ++ concatAll (c.map (fun f => ",\n" ++ encode_fragment nm f)) := by
  have henc : ∀ fs : List FieldDescriptor,
      encode_field_loop nm fs = joinWith ",\n" (fs.map (encode_fragment nm)) := by
    intro fs
    rw [encode_field_loop_eq_join, List.map_map]
    congr 1
    apply List.map_congr_left
    intro f _
    exact (encode_fragment_eq_render nm f).symm
  refine ⟨decode_field_loop_eq_join nm d.fields, henc d.fields, ?_, ?_⟩
  · intro f _
    refine ⟨?_, ?_, ?_, encode_fragment_eq_render nm f, (encodeFragmentOf_own_field nm f).1,
      (encodeFragmentOf_own_field nm f).2.1⟩
    · unfold field_to_decode_function decodeClauses
      cases h : f.type <;> cases hr : f.is_repeated <;>
        simp only [joinWith, DecodeClause.render, DecodeExpr.text, PayloadPattern.text,
          PayloadPattern.var, List.map, if_true, if_false, reduceCtorEq,
          Bool.false_eq_true] <;>
        (apply String.ext; simp only [String.data_append, List.append_assoc, List.cons_append,
        List.nil_append, List.append_nil])
    · unfold decodeClauses
      cases h : f.type <;> cases hr : f.is_repeated <;> simp
    · intro c hc
      obtain ⟨hid, hfield, _⟩ := decodeClauses_own_field nm f c hc
      refine ⟨hid, hfield, ?_⟩
      rw [← hid, ← hfield]
      exact render_names_field nm c
  · intro a fi b fj c hfields
    rw [decode_field_loop_eq_join, henc, hfields]
    refine ⟨?_, ?_, ?_⟩
    · simp only [List.map_append, List.map_cons]
      rw [joinWith_two_items]
      simp only [List.map_map, Function.comp_def]
    · have h : a ++ fi :: b ++ fj :: c = a ++ ([fi] ++ (b ++ ([fj] ++ c))) := by simp
      rw [h]
      simp [messageDecodeClauses_append, messageDecodeClauses, List.append_assoc]
    · simp only [List.map_append, List.map_cons]
      rw [joinWith_two_items]
      simp only [List.map_map, Function.comp_def]

/-- C16 at a message with three fields: the repeated `int32` field comes before
the message field. -/
theorem C16_fields_in_declaration_order_witness :
    sampleFieldsMessage.fields
        = [] ++ sampleRepeatedInt32 :: [sampleInt32Field] ++ sampleMessageField :: []
      ∧ encode_field_loop sampleNaming sampleFieldsMessage.fields
        = "    protocol_buffers:encode(1,int32,R#m.xs),\n    protocol_buffers:encode(3,int32,R#m.x),\n    protocol_buffers:encode(4,length_encoded,encode_sub(R#m.s))"
      ∧ messageDecodeClauses sampleNaming sampleFieldsMessage.fields
        = messageDecodeClauses sampleNaming [] ++ decodeClauses sampleNaming sampleRepeatedInt32
          ++ messageDecodeClauses sampleNaming [sampleInt32Field]
          ++ decodeClauses sampleNaming sampleMessageField
          ++ messageDecodeClauses sampleNaming [] :=
  ⟨rfl, by rfl,
    ((C16_fields_in_declaration_order sampleNaming sampleFieldsMessage).2.2.2
      [] sampleRepeatedInt32 [sampleInt32Field] sampleMessageField [] rfl).2.1⟩

end ErlangGenerator
